import Mathlib

/-!
# Verification of the KDP manuscript formatter against its specification

Shallow embedding of the formatting engine found in `src/services/`
(`dpi_checker.py`, `frontmatter.py`, `formatter.py`).  Python dictionaries
become structures, the lxml document body becomes a list of elements with
stable identities, fallible I/O becomes explicit result values, and the
machine arithmetic (EMU length units, integer floor division) is carried
out on `Nat`/`Int` exactly as the source computes it.
-/

set_option maxHeartbeats 1000000

/-! ## Image DPI scanner (`src/services/dpi_checker.py`) -/

/-- The `dpi` field of a warning dictionary: an integer on the low-DPI
path, the literal string `"Unknown"` on the decode-failure path, and
`"N/A"` on the container-failure path. -/
inductive DpiField where
  | num (n : Nat)
  | unknownStr
  | na
deriving DecidableEq, Repr

/-- One warning dictionary produced by `check_image_dpi`.  The decode- and
container-failure dictionaries carry no `width`/`height` keys, modelled
with `none`. -/
structure DpiWarning where
  image : String
  dpi : DpiField
  required : Nat
  width : Option Nat
  height : Option Nat
  message : String
deriving DecidableEq, Repr

/-- What PIL reports for one decoded image: optional resolution metadata
(the `dpi` entry of `image.info`, defaulting to both axes 72 when absent,
already reduced to the per-axis integers the source extracts) and the pixel dimensions. -/
structure ImageInfo where
  dpi : Option (Nat × Nat)
  width : Nat
  height : Nat
deriving DecidableEq, Repr

/-- Result of `docx_zip.read(file_name)` followed by `Image.open`: either
a decoded image or the text of the raised exception. -/
inductive ImgRead where
  | ok (info : ImageInfo)
  | err (msg : String)
deriving DecidableEq, Repr

/-- One named entry of the zip container. -/
structure ZipEntry where
  name : String
  img : ImgRead
deriving DecidableEq, Repr

/-- Result of opening the zip container with `zipfile.ZipFile`: the
entry list, or the text of the raised exception. -/
inductive ZipOpen where
  | ok (entries : List ZipEntry)
  | err (msg : String)
deriving DecidableEq, Repr

/-- Whether the first list is a leading segment of the second
(character-list form of the Python method `str.startswith`, written
structurally so the kernel can evaluate it). -/
def listBeginsWith : List Char → List Char → Bool
  | [], _ => true
  | _ :: _, [] => false
  | p :: ps, c :: cs => p == c && listBeginsWith ps cs

/-- Python `s.startswith(pre)`. -/
def strStartsWith (s pre : String) : Bool := listBeginsWith pre.data s.data

/-- Python `s.endswith(suf)`. -/
def strEndsWith (s suf : String) : Bool := listBeginsWith suf.data.reverse s.data.reverse

/-- Python `s.lower()` (ASCII case folding, which is all the extension
constants of the source need). -/
def strToLower (s : String) : String := String.mk (s.data.map Char.toLower)

/-- Python `_is_image_file`: extension whitelist, checked on the lowercased
name. -/
def imageExtensions : List String :=
  [".png", ".jpg", ".jpeg", ".gif", ".bmp", ".tiff", ".tif", ".webp"]

/-- Python `_is_image_file(filename)`:
`filename.lower().endswith(image_extensions)`. -/
def isImageFile (filename : String) : Bool :=
  imageExtensions.any (fun ext => strEndsWith (strToLower filename) ext)

/-- The segment of the name after the last slash, i.e. the last entry
of the Python slash-split of `file_name`. -/
def baseName (s : String) : String :=
  String.mk (s.data.reverse.takeWhile (fun c => !(c == '/'))).reverse

/-- The media-namespace filter of the scan loop: the entry name begins
with the media namespace `word/media/` and passes `_is_image_file`. -/
def isMediaImage (name : String) : Bool :=
  strStartsWith name "word/media/" && isImageFile name

/-- Python `int(dpi_axis) if dpi_axis else 72`: a zero (falsy) axis value falls
back to 72. -/
def effAxis (v : Nat) : Nat := if v = 0 then 72 else v

/-- The per-axis DPI the scanner ends up with: metadata when present
(with the zero fallback per axis), otherwise the `(72, 72)` default. -/
def effDpi (info : ImageInfo) : Nat × Nat :=
  match info.dpi with
  | none => (72, 72)
  | some (x, y) => (effAxis x, effAxis y)

/-- Python `avg_dpi = (dpi_x + dpi_y) // 2` (integer floor division). -/
def avgDpi (info : ImageInfo) : Nat := ((effDpi info).1 + (effDpi info).2) / 2

/-- The warning dictionary appended when `avg_dpi < min_dpi`. -/
def lowDpiWarning (fileName : String) (avg minDpi : Nat) (info : ImageInfo) : DpiWarning :=
  let img := baseName fileName
  { image := img
  , dpi := DpiField.num avg
  , required := minDpi
  , width := some info.width
  , height := some info.height
  , message := s!"Image \x27{img}\x27 has {avg} DPI (minimum {minDpi} DPI required for print)" }

/-- The warning dictionary appended when an individual image fails to
decode. -/
def decodeFailWarning (fileName errMsg : String) (minDpi : Nat) : DpiWarning :=
  let img := baseName fileName
  { image := img
  , dpi := DpiField.unknownStr
  , required := minDpi
  , width := none
  , height := none
  , message := s!"Could not analyze image \x27{img}\x27: {errMsg}" }

/-- The single warning produced when the container cannot be opened. -/
def containerWarning (errMsg : String) (minDpi : Nat) : DpiWarning :=
  { image := "N/A"
  , dpi := DpiField.na
  , required := minDpi
  , width := none
  , height := none
  , message := s!"Error reading DOCX file: {errMsg}" }

/-- One iteration of the scan loop over `docx_zip.namelist()`: skip
non-media entries, turn a decode failure into a warning, and warn when
the floor-averaged DPI is below the threshold. -/
def scanStep (minDpi : Nat) (ws : List DpiWarning) (e : ZipEntry) : List DpiWarning :=
  if isMediaImage e.name then
    match e.img with
    | ImgRead.err msg => ws ++ [decodeFailWarning e.name msg minDpi]
    | ImgRead.ok info =>
      let avg := avgDpi info
      if avg < minDpi then ws ++ [lowDpiWarning e.name avg minDpi info] else ws
  else ws

/-- Python `check_image_dpi(docx_path, min_dpi=300)`: the whole scan.  The
Python function never raises: the outer `try` turns a container-open
failure into a single warning, and the per-entry `try` keeps the loop
going after a decode failure. -/
def check_image_dpi (docx : ZipOpen) (minDpi : Nat) : List DpiWarning :=
  match docx with
  | ZipOpen.err e => [containerWarning e minDpi]
  | ZipOpen.ok entries => entries.foldl (scanStep minDpi) []

/-- The warnings one entry contributes to the scan. -/
def entryWarnings (minDpi : Nat) (e : ZipEntry) : List DpiWarning :=
  if isMediaImage e.name then
    match e.img with
    | ImgRead.err msg => [decodeFailWarning e.name msg minDpi]
    | ImgRead.ok info =>
      let avg := avgDpi info
      if avg < minDpi then [lowDpiWarning e.name avg minDpi info] else []
  else []

theorem scanStep_eq_append (minDpi : Nat) (ws : List DpiWarning) (e : ZipEntry) :
    scanStep minDpi ws e = ws ++ entryWarnings minDpi e := by
  unfold scanStep entryWarnings
  by_cases h : isMediaImage e.name
  · simp only [h, if_true]
    cases e.img with
    | err msg => rfl
    | ok info =>
      by_cases h2 : avgDpi info < minDpi
      · simp [h2]
      · simp [h2]
  · simp [h]

theorem scan_foldl_eq (minDpi : Nat) (entries : List ZipEntry) (ws : List DpiWarning) :
    entries.foldl (scanStep minDpi) ws = ws ++ (entries.map (entryWarnings minDpi)).flatten := by
  induction entries generalizing ws with
  | nil => simp
  | cons e rest ih =>
    simp only [List.foldl_cons, List.map_cons, List.flatten_cons]
    rw [scanStep_eq_append, ih, List.append_assoc]

theorem check_ok_eq_flatten (minDpi : Nat) (entries : List ZipEntry) :
    check_image_dpi (ZipOpen.ok entries) minDpi
      = (entries.map (entryWarnings minDpi)).flatten := by
  show entries.foldl (scanStep minDpi) [] = _
  rw [scan_foldl_eq]
  simp

/-- C4: for every media-namespace image entry the scanner can decode:
missing resolution metadata defaults both axes to 72; the loop step adds
exactly one warning, carrying the floor-averaged DPI, when that average
is strictly below the threshold, and adds nothing otherwise. -/
theorem C4_decodable_entry_warning (minDpi : Nat) (ws : List DpiWarning)
    (name : String) (info : ImageInfo)
    (hmedia : isMediaImage name = true) :
    (info.dpi = none → effDpi info = (72, 72)) ∧
    (lowDpiWarning name (avgDpi info) minDpi info).dpi = DpiField.num (avgDpi info) ∧
    scanStep minDpi ws { name := name, img := ImgRead.ok info } =
      (if avgDpi info < minDpi
        then ws ++ [lowDpiWarning name (avgDpi info) minDpi info]
        else ws) := by
  refine ⟨fun h => ?_, rfl, ?_⟩
  · unfold effDpi
    rw [h]
  · unfold scanStep
    simp only [hmedia, if_true]

/-- A concrete decodable image with no resolution metadata, for the C4
witness. -/
def demoInfo : ImageInfo := { dpi := none, width := 10, height := 10 }

theorem C4_decodable_entry_warning_witness :
    isMediaImage "word/media/image1.png" = true ∧
    ((demoInfo.dpi = none → effDpi demoInfo = (72, 72)) ∧
      (lowDpiWarning "word/media/image1.png" (avgDpi demoInfo) 300 demoInfo).dpi
        = DpiField.num (avgDpi demoInfo) ∧
      scanStep 300 [] { name := "word/media/image1.png", img := ImgRead.ok demoInfo } =
        (if avgDpi demoInfo < 300
          then [] ++ [lowDpiWarning "word/media/image1.png" (avgDpi demoInfo) 300 demoInfo]
          else [])) :=
  ⟨by decide,
   C4_decodable_entry_warning 300 [] "word/media/image1.png" demoInfo (by decide)⟩

/-- C5: the scan is total and degrades failures to warnings: a container
that cannot be opened yields exactly one warning describing the failure,
and a media entry that fails to decode contributes one warning with the
error context while the scan of the remaining entries continues. -/
theorem C5_scan_degrades_to_warnings (minDpi : Nat) (errOpen : String)
    (xs ys : List ZipEntry) (name errMsg : String)
    (hmedia : isMediaImage name = true) :
    check_image_dpi (ZipOpen.err errOpen) minDpi = [containerWarning errOpen minDpi] ∧
    check_image_dpi (ZipOpen.ok (xs ++ { name := name, img := ImgRead.err errMsg } :: ys)) minDpi
      = check_image_dpi (ZipOpen.ok xs) minDpi
          ++ decodeFailWarning name errMsg minDpi
            :: (ys.map (entryWarnings minDpi)).flatten := by
  constructor
  · rfl
  · rw [check_ok_eq_flatten, check_ok_eq_flatten]
    simp only [List.map_append, List.map_cons, List.flatten_append, List.flatten_cons]
    congr 1
    have h : entryWarnings minDpi { name := name, img := ImgRead.err errMsg }
        = [decodeFailWarning name errMsg minDpi] := by
      unfold entryWarnings
      simp [hmedia]
    rw [h]
    simp

/-- A concrete media entry whose decode fails, for the C5 witness. -/
def demoBadEntry : ZipEntry := { name := "word/media/pic.jpg", img := ImgRead.err "truncated" }

theorem C5_scan_degrades_to_warnings_witness :
    isMediaImage "word/media/pic.jpg" = true ∧
    (check_image_dpi (ZipOpen.err "bad zip") 300 = [containerWarning "bad zip" 300] ∧
      check_image_dpi (ZipOpen.ok ([] ++ demoBadEntry :: [])) 300
        = check_image_dpi (ZipOpen.ok []) 300
            ++ decodeFailWarning "word/media/pic.jpg" "truncated" 300
              :: (([] : List ZipEntry).map (entryWarnings 300)).flatten) :=
  ⟨by decide,
   C5_scan_degrades_to_warnings 300 "bad zip" [] [] "word/media/pic.jpg" "truncated" (by decide)⟩

/-! ## Document tree model

The lxml body is an ordered list of elements.  Each element carries a
stable identity (`id`): lxml elements are objects, and `addprevious`,
`append` and `insert` *move* an element already in the tree rather than
copying it.  All list operations below locate elements by that identity.
-/

/-- Tag kind of a body-level element: `w:p`, `w:sectPr`, or anything
else (tables etc.). -/
inductive EKind where
  | p
  | sectPr
  | other
deriving DecidableEq, Repr

/-- Paragraph alignment (`WD_ALIGN_PARAGRAPH`). -/
inductive Align where
  | left
  | center
  | right
  | justify
deriving DecidableEq, Repr

/-- One run: text plus character formatting, and the non-text constructs
the source creates (`w:br` page break, `w:fldChar`, `w:instrText`).
Lengths are in EMU as python-docx stores them (`Pt(n) = 12700 n`). -/
structure Run where
  text : String := ""
  font_name : Option String := none
  font_size : Option Int := none
  bold : Option Bool := none
  italic : Option Bool := none
  pageBreak : Bool := false
  fldChar : Option String := none
  instrText : Option String := none
deriving DecidableEq, Repr

/-- One body element.  Paragraph-level formatting mirrors
`paragraph_format`; `style` is the explicit style reference (`none`
means the document default, which python-docx resolves to `Normal`). -/
structure Elem where
  id : Nat
  kind : EKind := EKind.p
  style : Option String := none
  alignment : Option Align := none
  line_spacing : Option ℚ := none
  space_before : Option Int := none
  space_after : Option Int := none
  first_line_indent : Option Int := none
  page_break_before : Option Bool := none
  runs : List Run := []
deriving DecidableEq, Repr

/-- Python `para.style.name` as python-docx resolves it: the explicit style if
set, else the `Normal` default. -/
def paraStyleName (e : Elem) : String := e.style.getD "Normal"

/-- Remove the (first) element with identity `i` — the lxml detach step
when a node already in the tree is re-linked elsewhere. -/
def eraseId : List Elem → Nat → List Elem
  | [], _ => []
  | e :: rest, i => if e.id = i then rest else e :: eraseId rest i

/-- Insert `x` directly before the (first) element with identity `t`
(libxml2 `xmlAddPrevSibling`); if no such element exists, append.  All
uses below have the target present. -/
def insertBeforeId : List Elem → Nat → Elem → List Elem
  | [], _, x => [x]
  | e :: rest, t, x => if e.id = t then x :: e :: rest else e :: insertBeforeId rest t x

/-- Python `first_element.addprevious(element)`: detach `x` from its current
position and re-link it directly before `t`. -/
def addpreviousMove (body : List Elem) (t : Nat) (x : Elem) : List Elem :=
  insertBeforeId (eraseId body x.id) t x

/-- Python `body.append(element)` on an element already in the body: detach and
re-link at the end. -/
def appendMove (body : List Elem) (x : Elem) : List Elem :=
  eraseId body x.id ++ [x]

/-- Python `doc.add_paragraph()` at the body level: python-docx inserts the new
`w:p` directly before the first `w:sectPr` child (the `successors`
mechanism of `CT_Body`), or appends when there is none. -/
def addParagraph : List Elem → Elem → List Elem
  | [], x => [x]
  | e :: rest, x =>
    if e.kind = EKind.sectPr then x :: e :: rest else e :: addParagraph rest x

/-- Python `body.insert(index, element)` on an element already in the body
(lxml): locate the current `index`-th child, detach `element`, re-link
it directly before that child; with the index out of range, append.
Inserting an element before itself leaves the tree unchanged. -/
def insertMoveAt (body : List Elem) (pos : Nat) (x : Elem) : List Elem :=
  match body[pos]? with
  | none => appendMove body x
  | some t => if t.id = x.id then body else insertBeforeId (eraseId body x.id) t.id x

/-! ## Front matter (`src/services/frontmatter.py`)

Fragment elements are created with `doc.add_paragraph()` (so they first
land at the end of the body, before any trailing `w:sectPr`) and are
then moved.  Fresh identities are `fresh, fresh+1, ...` in creation
order.  The current year is a parameter (`datetime.now().year`). -/

/-- An empty spacer paragraph. -/
def emptyPara (i : Nat) : Elem := { id := i }

/-- A paragraph holding a single centered run. -/
def centeredPara (i : Nat) (txt : String) (size : Int)
    (isBold isItalic : Option Bool) : Elem :=
  { id := i
  , alignment := some Align.center
  , runs := [{ text := txt, font_name := some "Georgia", font_size := some size,
               bold := isBold, italic := isItalic }] }

/-- A paragraph whose single run carries a `w:br` of type page
(`_create_page_break`). -/
def pageBreakPara (i : Nat) : Elem :=
  { id := i, runs := [{ pageBreak := true }] }

/-- Python `_create_title_page`: eight spacers, the bold 36pt title, two
spacers, the 18pt author, a page break (13 elements). -/
def titleElems (fresh : Nat) (title author : String) : List Elem :=
  (List.range 8).map (fun j => emptyPara (fresh + j)) ++
  [ centeredPara (fresh + 8) title 457200 (some true) none
  , emptyPara (fresh + 9)
  , emptyPara (fresh + 10)
  , centeredPara (fresh + 11) author 228600 none none
  , pageBreakPara (fresh + 12) ]

/-- The lines of the copyright template, i.e. the result of splitting
the triple-quoted f-string of the source on newlines. -/
def copyrightLines (title author : String) (year : Nat) : List String :=
  [ s!"Copyright © {year} {author}"
  , ""
  , "All rights reserved."
  , ""
  , "No part of this publication may be reproduced, distributed, or transmitted in any form or by any means, including photocopying, recording, or other electronic or mechanical methods, without the prior written permission of the publisher, except in the case of brief quotations embodied in critical reviews and certain other noncommercial uses permitted by copyright law."
  , ""
  , title
  , ""
  , "First Edition"
  , ""
  , "Printed in the United States of America" ]

/-- Python `_create_copyright_page`: six spacers, one centered 10pt paragraph
per template line (the per-line loop unrolled over the 11 lines above),
a page break (18 elements). -/
def copyrightElems (fresh : Nat) (title author : String) (year : Nat) : List Elem :=
  (List.range 6).map (fun j => emptyPara (fresh + j)) ++
  [ centeredPara (fresh + 6) ((copyrightLines title author year).getD 0 "") 127000 none none
  , centeredPara (fresh + 7) "" 127000 none none
  , centeredPara (fresh + 8) "All rights reserved." 127000 none none
  , centeredPara (fresh + 9) "" 127000 none none
  , centeredPara (fresh + 10) ((copyrightLines title author year).getD 4 "") 127000 none none
  , centeredPara (fresh + 11) "" 127000 none none
  , centeredPara (fresh + 12) title 127000 none none
  , centeredPara (fresh + 13) "" 127000 none none
  , centeredPara (fresh + 14) "First Edition" 127000 none none
  , centeredPara (fresh + 15) "" 127000 none none
  , centeredPara (fresh + 16) "Printed in the United States of America" 127000 none none
  , pageBreakPara (fresh + 17) ]

/-- Python `_create_dedication_page`: ten spacers, the italic 14pt dedication
line, a page break (12 elements). -/
def dedicationElems (fresh : Nat) : List Elem :=
  (List.range 10).map (fun j => emptyPara (fresh + j)) ++
  [ centeredPara (fresh + 10) "For someone special…" 177800 none (some true)
  , pageBreakPara (fresh + 11) ]

/-- The full front-matter fragment list in generation order
(title → copyright → dedication, 43 elements). -/
def frontMatterElems (fresh : Nat) (title author : String) (year : Nat) : List Elem :=
  titleElems fresh title author
    ++ copyrightElems (fresh + 13) title author year
    ++ dedicationElems (fresh + 31)

/-- Python `insert_front_matter(doc, title, author)`: remember `body[0]` (or
`None` for an empty body), create the 43 fragment elements via
`doc.add_paragraph()` (which appends them, before any trailing
`w:sectPr`), then iterate the fragment list **reversed**, moving each
element directly before the remembered first element (`addprevious`),
or appending when the body was empty. -/
def insert_front_matter (body : List Elem) (fresh : Nat)
    (title author : String) (year : Nat) : List Elem :=
  let first? := body.head?
  let fm := frontMatterElems fresh title author year
  let body1 := fm.foldl addParagraph body
  fm.reverse.foldl
    (fun b x =>
      match first? with
      | some fe => addpreviousMove b fe.id x
      | none => appendMove b x)
    body1

/-! ## TOC injection (`_insert_toc` in `src/services/formatter.py`) -/

/-- The TOC heading paragraph: bold 18pt Georgia, centered. -/
def tocTitlePara (i : Nat) : Elem :=
  { id := i
  , alignment := some Align.center
  , runs := [{ text := "Table of Contents", font_name := some "Georgia",
               font_size := some 228600, bold := some true }] }

/-- Python `_add_toc_field`: the five-run field construct (begin marker,
instruction text, separator, italic 10pt fallback text, end marker). -/
def tocFieldPara (i : Nat) : Elem :=
  { id := i
  , runs :=
    [ { fldChar := some "begin" }
    , { instrText := some " TOC \\o \x221-3\x22 \\h \\z \\u " }
    , { fldChar := some "separate" }
    , { text := "Right-click and select \x27Update Field\x27 to generate TOC",
        italic := some true, font_size := some 127000 }
    , { fldChar := some "end" } ] }

/-- The four TOC block elements in creation order: heading, spacer,
field paragraph, page-break paragraph. -/
def tocElems (fresh : Nat) : List Elem :=
  [ tocTitlePara fresh
  , emptyPara (fresh + 1)
  , tocFieldPara (fresh + 2)
  , pageBreakPara (fresh + 3) ]

/-- The paragraph-counting walk of `_insert_toc`: count `w:p` children,
breaking out once the count exceeds 30 (so the loop can return 31). -/
def fmCountGo : List Elem → Nat → Nat
  | [], c => c
  | e :: rest, c =>
    if e.kind = EKind.p then
      let c1 := c + 1
      if 30 < c1 then c1 else fmCountGo rest c1
    else fmCountGo rest c

/-- Python `front_matter_count` as computed over the whole body. -/
def frontMatterCount (body : List Elem) : Nat := fmCountGo body 0

/-- Python `_insert_toc(doc)`: create the four TOC elements with
`doc.add_paragraph()` (appending them, before any trailing `w:sectPr`),
count paragraphs over the extended body, take
`insert_position = min(front_matter_count, len(body) - 1)`, then move
each TOC element, in reversed creation order, to that position (or
append when the position is out of range). -/
def insert_toc (body : List Elem) (fresh : Nat) : List Elem :=
  let toc := tocElems fresh
  let body1 := toc.foldl addParagraph body
  let pos := min (frontMatterCount body1) (body1.length - 1)
  toc.reverse.foldl
    (fun b x => if pos < b.length then insertMoveAt b pos x else appendMove b x)
    body1

/-! ## List-surgery lemmas

Facts about `eraseId`, `insertBeforeId`, `addParagraph` and
`insertMoveAt` used to reason about the splicing loops. -/

theorem eraseId_append_left (A B : List Elem) (i : Nat)
    (h : ∀ a ∈ A, a.id ≠ i) : eraseId (A ++ B) i = A ++ eraseId B i := by
  induction A with
  | nil => rfl
  | cons a A ih =>
    have ha : a.id ≠ i := h a (by simp)
    show (if a.id = i then A ++ B else a :: eraseId (A ++ B) i) = a :: (A ++ eraseId B i)
    rw [if_neg ha, ih (fun x hx => h x (by simp [hx]))]

theorem eraseId_cons_self (x : Elem) (rest : List Elem) :
    eraseId (x :: rest) x.id = rest := by
  simp [eraseId]

theorem eraseId_not_mem (l : List Elem) (i : Nat)
    (h : ∀ a ∈ l, a.id ≠ i) : eraseId l i = l := by
  induction l with
  | nil => rfl
  | cons a l ih =>
    have ha : a.id ≠ i := h a (by simp)
    simp only [eraseId, if_neg ha]
    rw [ih (fun x hx => h x (by simp [hx]))]

theorem mem_eraseId (l : List Elem) (i : Nat) (a : Elem)
    (ha : a ∈ l) (hne : a.id ≠ i) : a ∈ eraseId l i := by
  induction l with
  | nil => cases ha
  | cons b l ih =>
    by_cases hb : b.id = i
    · simp only [eraseId, if_pos hb]
      rcases List.mem_cons.mp ha with rfl | h
      · exact absurd hb hne
      · exact h
    · simp only [eraseId, if_neg hb]
      rcases List.mem_cons.mp ha with rfl | h
      · exact List.mem_cons_self a _
      · exact List.mem_cons_of_mem _ (ih h)

theorem insertBeforeId_append_left (A B : List Elem) (t : Nat) (x : Elem)
    (h : ∀ a ∈ A, a.id ≠ t) :
    insertBeforeId (A ++ B) t x = A ++ insertBeforeId B t x := by
  induction A with
  | nil => rfl
  | cons a A ih =>
    have ha : a.id ≠ t := h a (by simp)
    show (if a.id = t then x :: a :: (A ++ B) else a :: insertBeforeId (A ++ B) t x)
        = a :: (A ++ insertBeforeId B t x)
    rw [if_neg ha, ih (fun z hz => h z (by simp [hz]))]

theorem insertBeforeId_cons_self (t : Elem) (rest : List Elem) (x : Elem) :
    insertBeforeId (t :: rest) t.id x = x :: t :: rest := by
  simp [insertBeforeId]

theorem mem_insertBeforeId (l : List Elem) (t : Nat) (x a : Elem)
    (ha : a ∈ l) : a ∈ insertBeforeId l t x := by
  induction l with
  | nil => cases ha
  | cons b l ih =>
    by_cases hb : b.id = t
    · simp only [insertBeforeId, if_pos hb]
      exact List.mem_cons_of_mem _ ha
    · simp only [insertBeforeId, if_neg hb]
      rcases List.mem_cons.mp ha with rfl | h
      · exact List.mem_cons_self a _
      · exact List.mem_cons_of_mem _ (ih h)

theorem self_mem_insertBeforeId (l : List Elem) (t : Nat) (x : Elem) :
    x ∈ insertBeforeId l t x := by
  induction l with
  | nil => simp [insertBeforeId]
  | cons b l ih =>
    by_cases hb : b.id = t
    · simp [insertBeforeId, hb]
    · simp only [insertBeforeId, if_neg hb]
      exact List.mem_cons_of_mem _ ih

theorem length_insertBeforeId (l : List Elem) (t : Nat) (x : Elem) :
    (insertBeforeId l t x).length = l.length + 1 := by
  induction l with
  | nil => rfl
  | cons b l ih =>
    by_cases hb : b.id = t
    · simp [insertBeforeId, hb]
    · simp only [insertBeforeId, if_neg hb, List.length_cons, ih]

theorem insertBeforeId_ne_nil (l : List Elem) (t : Nat) (x : Elem) :
    insertBeforeId l t x ≠ [] := by
  intro h
  have := length_insertBeforeId l t x
  rw [h] at this
  simp at this

theorem getLast?_eraseId (l : List Elem) (i : Nat) (g : Elem)
    (hl : l.getLast? = some g) (hg : g.id ≠ i) :
    (eraseId l i).getLast? = some g := by
  induction l with
  | nil => simp at hl
  | cons a l ih =>
    by_cases ha : a.id = i
    · simp only [eraseId, if_pos ha]
      cases l with
      | nil =>
        simp only [List.getLast?_singleton] at hl
        cases hl
        exact absurd ha hg
      | cons b l' => rwa [List.getLast?_cons_cons] at hl
    · simp only [eraseId, if_neg ha]
      cases l with
      | nil => simpa [eraseId] using hl
      | cons b l' =>
        rw [List.getLast?_cons_cons] at hl
        have h2 := ih hl
        cases he : eraseId (b :: l') i with
        | nil => rw [he] at h2; simp at h2
        | cons c l'' => rw [he] at h2; rw [List.getLast?_cons_cons]; exact h2

theorem getLast?_insertBeforeId (l : List Elem) (t : Nat) (x : Elem) (g : Elem)
    (hl : l.getLast? = some g) (ht : ∃ a ∈ l, a.id = t) :
    (insertBeforeId l t x).getLast? = some g := by
  induction l with
  | nil => simp at hl
  | cons a l ih =>
    by_cases ha : a.id = t
    · simp only [insertBeforeId, if_pos ha]
      cases l with
      | nil => simpa using hl
      | cons b l' =>
        rw [List.getLast?_cons_cons] at hl ⊢
        rwa [List.getLast?_cons_cons]
    · simp only [insertBeforeId, if_neg ha]
      cases l with
      | nil =>
        rcases ht with ⟨c, hc, hct⟩
        simp only [List.mem_singleton] at hc
        subst hc
        exact absurd hct ha
      | cons b l' =>
        rw [List.getLast?_cons_cons] at hl
        have ht' : ∃ c ∈ b :: l', c.id = t := by
          rcases ht with ⟨c, hc, hct⟩
          rcases List.mem_cons.mp hc with rfl | h
          · exact absurd hct ha
          · exact ⟨c, h, hct⟩
        have h2 := ih hl ht'
        cases he : insertBeforeId (b :: l') t x with
        | nil => exact absurd he (insertBeforeId_ne_nil _ _ _)
        | cons c l'' => rw [he] at h2; rw [List.getLast?_cons_cons]; exact h2

theorem addParagraph_ne_nil (l : List Elem) (x : Elem) : addParagraph l x ≠ [] := by
  cases l with
  | nil => simp [addParagraph]
  | cons b l =>
    by_cases hb : b.kind = EKind.sectPr
    · simp [addParagraph, hb]
    · simp [addParagraph, hb]

theorem getLast?_addParagraph (l : List Elem) (x : Elem) (g : Elem)
    (hl : l.getLast? = some g) (hs : ∃ a ∈ l, a.kind = EKind.sectPr) :
    (addParagraph l x).getLast? = some g := by
  induction l with
  | nil => simp at hl
  | cons a l ih =>
    by_cases ha : a.kind = EKind.sectPr
    · simp only [addParagraph, if_pos ha]
      cases l with
      | nil => simpa using hl
      | cons b l' =>
        rw [List.getLast?_cons_cons] at hl ⊢
        rwa [List.getLast?_cons_cons]
    · simp only [addParagraph, if_neg ha]
      cases l with
      | nil =>
        rcases hs with ⟨c, hc, hck⟩
        simp only [List.mem_singleton] at hc
        subst hc
        exact absurd hck ha
      | cons b l' =>
        rw [List.getLast?_cons_cons] at hl
        have hs' : ∃ c ∈ b :: l', c.kind = EKind.sectPr := by
          rcases hs with ⟨c, hc, hck⟩
          rcases List.mem_cons.mp hc with rfl | h
          · exact absurd hck ha
          · exact ⟨c, h, hck⟩
        have h2 := ih hl hs'
        cases he : addParagraph (b :: l') x with
        | nil => exact absurd he (addParagraph_ne_nil _ _)
        | cons c l'' => rw [he] at h2; rw [List.getLast?_cons_cons]; exact h2

theorem mem_addParagraph (l : List Elem) (x a : Elem) (ha : a ∈ l) :
    a ∈ addParagraph l x := by
  induction l with
  | nil => cases ha
  | cons b l ih =>
    by_cases hb : b.kind = EKind.sectPr
    · simp only [addParagraph, if_pos hb]
      exact List.mem_cons_of_mem _ ha
    · simp only [addParagraph, if_neg hb]
      rcases List.mem_cons.mp ha with rfl | h
      · exact List.mem_cons_self a _
      · exact List.mem_cons_of_mem _ (ih h)

/-! ## C1: front-matter splice order -/

/-- A two-element original body: one content paragraph and the trailing
`w:sectPr`. -/
def c1Body : List Elem :=
  [ { id := 100, runs := [{ text := "X" }] }
  , { id := 101, kind := EKind.sectPr } ]

/-- C1 (code bug): the claim — and §4.6 of the spec — require final
order title page, copyright page, dedication page, original content.
The code iterates `reversed(front_matter_elements)` but splices with
`first_element.addprevious(element)`, which links each element
*directly before* the pivot; the two reversals compound instead of
cancelling, so the synthesized front matter comes out entirely
reversed: the body starts with the dedication page break (creation
index 42) and the title-page spacers (indices 0…7) end up last among
the fragment elements, directly before the original content.  This
theorem evaluates the model at the failing input: fragment identities
are `0…42` in generation order, and the result is exactly
`[42, 41, …, 1, 0]` followed by the original two elements. -/
theorem C1_front_matter_reversed :
    (insert_front_matter c1Body 0 "T" "A" 2025).map Elem.id
      = (List.range 43).reverse ++ [100, 101] := by decide

/-! ## Identity bounds for the synthesized fragments -/

theorem titleElems_id_ge (f : Nat) (t a : String) (x : Elem)
    (hx : x ∈ titleElems f t a) : f ≤ x.id := by
  simp only [titleElems, List.mem_append, List.mem_map, List.mem_range, List.mem_cons,
    List.not_mem_nil, or_false] at hx
  rcases hx with ⟨j, hj, rfl⟩ | rfl | rfl | rfl | rfl | rfl <;>
    simp [emptyPara, centeredPara, pageBreakPara] <;> omega

theorem copyrightElems_id_ge (f : Nat) (t a : String) (y : Nat) (x : Elem)
    (hx : x ∈ copyrightElems f t a y) : f ≤ x.id := by
  simp only [copyrightElems, List.mem_append, List.mem_map, List.mem_range, List.mem_cons,
    List.not_mem_nil, or_false] at hx
  rcases hx with ⟨j, hj, rfl⟩ | rfl | rfl | rfl | rfl | rfl | rfl | rfl | rfl | rfl | rfl | rfl | rfl <;>
    simp [emptyPara, centeredPara, pageBreakPara] <;> omega

theorem dedicationElems_id_ge (f : Nat) (x : Elem)
    (hx : x ∈ dedicationElems f) : f ≤ x.id := by
  simp only [dedicationElems, List.mem_append, List.mem_map, List.mem_range, List.mem_cons,
    List.not_mem_nil, or_false] at hx
  rcases hx with ⟨j, hj, rfl⟩ | rfl | rfl <;>
    simp [emptyPara, centeredPara, pageBreakPara] <;> omega

theorem frontMatterElems_id_ge (f : Nat) (t a : String) (y : Nat) (x : Elem)
    (hx : x ∈ frontMatterElems f t a y) : f ≤ x.id := by
  simp only [frontMatterElems, List.mem_append] at hx
  rcases hx with (h | h) | h
  · exact titleElems_id_ge f t a x h
  · have := copyrightElems_id_ge (f + 13) t a y x h
    omega
  · have := dedicationElems_id_ge (f + 31) x h
    omega

theorem tocElems_id_ge (f : Nat) (x : Elem) (hx : x ∈ tocElems f) : f ≤ x.id := by
  simp only [tocElems, List.mem_cons, List.not_mem_nil, or_false] at hx
  rcases hx with rfl | rfl | rfl | rfl <;>
    simp [tocTitlePara, emptyPara, tocFieldPara, pageBreakPara] <;> omega

theorem tocElems_id_inj (f : Nat) (a b : Elem)
    (ha : a ∈ tocElems f) (hb : b ∈ tocElems f) (hne : a ≠ b) : a.id ≠ b.id := by
  simp only [tocElems, List.mem_cons, List.not_mem_nil, or_false] at ha hb
  rcases ha with rfl | rfl | rfl | rfl <;> rcases hb with rfl | rfl | rfl | rfl <;>
    first
      | exact absurd rfl hne
      | simp [tocTitlePara, emptyPara, tocFieldPara, pageBreakPara]

/-! ## C10: synthesized elements never displace the trailing `w:sectPr` -/

theorem mem_of_getLast?_eq (l : List Elem) (g : Elem) (h : l.getLast? = some g) : g ∈ l := by
  induction l with
  | nil => simp at h
  | cons a l ih =>
    cases l with
    | nil =>
      simp only [List.getLast?_singleton, Option.some_inj] at h
      simp [h]
    | cons b l' =>
      rw [List.getLast?_cons_cons] at h
      exact List.mem_cons_of_mem _ (ih h)

theorem self_mem_addParagraph (l : List Elem) (x : Elem) : x ∈ addParagraph l x := by
  induction l with
  | nil => simp [addParagraph]
  | cons b l ih =>
    by_cases hb : b.kind = EKind.sectPr
    · simp [addParagraph, hb]
    · simp only [addParagraph, if_neg hb]
      exact List.mem_cons_of_mem _ ih

theorem length_addParagraph (l : List Elem) (x : Elem) :
    (addParagraph l x).length = l.length + 1 := by
  induction l with
  | nil => rfl
  | cons b l ih =>
    by_cases hb : b.kind = EKind.sectPr
    · simp [addParagraph, hb]
    · simp only [addParagraph, if_neg hb, List.length_cons, ih]

theorem length_eraseId_mem (l : List Elem) (i : Nat)
    (h : ∃ a ∈ l, a.id = i) : (eraseId l i).length + 1 = l.length := by
  induction l with
  | nil => simp at h
  | cons b l ih =>
    by_cases hb : b.id = i
    · simp [eraseId, hb]
    · simp only [eraseId, if_neg hb, List.length_cons]
      have h' : ∃ a ∈ l, a.id = i := by
        rcases h with ⟨a, ha, hai⟩
        rcases List.mem_cons.mp ha with rfl | hm
        · exact absurd hai hb
        · exact ⟨a, hm, hai⟩
      rw [ih h']

theorem foldl_addParagraph_mem (es : List Elem) (b : List Elem) (a : Elem)
    (ha : a ∈ b) : a ∈ es.foldl addParagraph b := by
  induction es generalizing b with
  | nil => exact ha
  | cons e es ih => exact ih _ (mem_addParagraph _ _ _ ha)

theorem foldl_addParagraph_all_mem (es : List Elem) (b : List Elem) (x : Elem)
    (hx : x ∈ es) : x ∈ es.foldl addParagraph b := by
  induction es generalizing b with
  | nil => cases hx
  | cons e es ih =>
    rcases List.mem_cons.mp hx with rfl | hm
    · exact foldl_addParagraph_mem es _ x (self_mem_addParagraph b x)
    · exact ih _ hm

theorem foldl_addParagraph_length (es : List Elem) (b : List Elem) :
    (es.foldl addParagraph b).length = b.length + es.length := by
  induction es generalizing b with
  | nil => rfl
  | cons e es ih =>
    simp only [List.foldl_cons, List.length_cons, ih, length_addParagraph]
    omega

theorem foldl_addParagraph_getLast (es : List Elem) (b : List Elem) (g : Elem)
    (hlast : b.getLast? = some g) (hmemg : g ∈ b) (hkind : g.kind = EKind.sectPr) :
    (es.foldl addParagraph b).getLast? = some g ∧ g ∈ es.foldl addParagraph b := by
  induction es generalizing b with
  | nil => exact ⟨hlast, hmemg⟩
  | cons e es ih =>
    exact ih _ (getLast?_addParagraph b e g hlast ⟨g, hmemg, hkind⟩)
      (mem_addParagraph _ _ _ hmemg)

theorem fm_move_fold_inv (fresh : Nat) (g fe : Elem) (es : List Elem) (b : List Elem)
    (hlast : b.getLast? = some g) (hfe : fe ∈ b)
    (hgid : g.id < fresh) (hfeid : fe.id < fresh)
    (hes : ∀ x ∈ es, fresh ≤ x.id) :
    (es.foldl (fun bb x => addpreviousMove bb fe.id x) b).getLast? = some g ∧
      fe ∈ es.foldl (fun bb x => addpreviousMove bb fe.id x) b := by
  induction es generalizing b with
  | nil => exact ⟨hlast, hfe⟩
  | cons x es ih =>
    have hx : fresh ≤ x.id := hes x (by simp)
    have hgx : g.id ≠ x.id := by omega
    have hfex : fe.id ≠ x.id := by omega
    have h1 : (addpreviousMove b fe.id x).getLast? = some g := by
      unfold addpreviousMove
      exact getLast?_insertBeforeId _ _ _ _ (getLast?_eraseId b x.id g hlast hgx)
        ⟨fe, mem_eraseId b x.id fe hfe hfex, rfl⟩
    have h2 : fe ∈ addpreviousMove b fe.id x := by
      unfold addpreviousMove
      exact mem_insertBeforeId _ _ _ _ (mem_eraseId b x.id fe hfe hfex)
    exact ih _ h1 h2 (fun z hz => hes z (by simp [hz]))

theorem toc_move_fold_inv (fresh : Nat) (pos : Nat) (g : Elem) (L : Nat) (es : List Elem)
    (b : List Elem)
    (hsub : ∀ x ∈ es, x ∈ tocElems fresh)
    (hlast : b.getLast? = some g)
    (hmem : ∀ t ∈ tocElems fresh, t ∈ b)
    (hlen : b.length = L)
    (hpos : pos < L)
    (hgid : g.id < fresh) :
    (es.foldl (fun bb x => if pos < bb.length then insertMoveAt bb pos x else appendMove bb x)
        b).getLast? = some g ∧
      (∀ t ∈ tocElems fresh, t ∈ es.foldl
          (fun bb x => if pos < bb.length then insertMoveAt bb pos x else appendMove bb x) b) ∧
      (es.foldl (fun bb x => if pos < bb.length then insertMoveAt bb pos x else appendMove bb x)
          b).length = L := by
  induction es generalizing b with
  | nil => exact ⟨hlast, hmem, hlen⟩
  | cons x es ih =>
    have hxtoc : x ∈ tocElems fresh := hsub x (by simp)
    have hxid : fresh ≤ x.id := tocElems_id_ge fresh x hxtoc
    have hgx : g.id ≠ x.id := by omega
    have hcond : pos < b.length := by omega
    have hposlt : pos < b.length := hcond
    have hb' : (if pos < b.length then insertMoveAt b pos x else appendMove b x)
        = insertMoveAt b pos x := if_pos hcond
    have hget : b[pos]? = some b[pos] := List.getElem?_eq_getElem hposlt
    set t := b[pos] with ht
    have htmem : t ∈ b := List.getElem_mem hposlt
    have hstep : (insertMoveAt b pos x).getLast? = some g ∧
        (∀ u ∈ tocElems fresh, u ∈ insertMoveAt b pos x) ∧
        (insertMoveAt b pos x).length = L := by
      unfold insertMoveAt
      rw [hget]
      by_cases hid : t.id = x.id
      · simp only [if_pos hid]
        exact ⟨hlast, hmem, hlen⟩
      · simp only [if_neg hid]
        refine ⟨?_, ?_, ?_⟩
        · exact getLast?_insertBeforeId _ _ _ _ (getLast?_eraseId b x.id g hlast hgx)
            ⟨t, mem_eraseId b x.id t htmem hid, rfl⟩
        · intro u hu
          by_cases hux : u = x
          · subst hux
            exact self_mem_insertBeforeId _ _ _
          · have huxid : u.id ≠ x.id := tocElems_id_inj fresh u x hu hxtoc hux
            exact mem_insertBeforeId _ _ _ _ (mem_eraseId b x.id u (hmem u hu) huxid)
        · rw [length_insertBeforeId]
          have hxb : x ∈ b := hmem x hxtoc
          have := length_eraseId_mem b x.id ⟨x, hxb, rfl⟩
          omega
    rw [List.foldl_cons, hb']
    exact ih _ (fun z hz => hsub z (by simp [hz])) hstep.1 hstep.2.1 hstep.2.2

/-- C10: neither front-matter insertion nor TOC insertion ever places a
synthesized element after the last pre-existing child of the body:
`insert_front_matter` moves every fragment element directly before the
first pre-existing child (appending only for an empty body), and
`_insert_toc` inserts at `min(paragraph_count, len(body) - 1)`, a
position strictly before the end of the body — so a trailing
section-properties element remains the last child after either
operation.  Hypotheses: the body ends in the `w:sectPr` element `g` and
`fresh` is larger than every existing identity (the synthesized lxml
elements are new objects). -/
theorem C10_sectPr_stays_last (body : List Elem) (fresh : Nat) (title author : String)
    (year : Nat) (g : Elem)
    (hlast : body.getLast? = some g) (hkind : g.kind = EKind.sectPr)
    (hids : ∀ a ∈ body, a.id < fresh) :
    (insert_front_matter body fresh title author year).getLast? = some g ∧
      (insert_toc body fresh).getLast? = some g := by
  have hgmem : g ∈ body := mem_of_getLast?_eq body g hlast
  have hgid : g.id < fresh := hids g hgmem
  cases body with
  | nil => simp at hlast
  | cons hd tl =>
    constructor
    · have hfe : hd ∈ hd :: tl := by simp
      have hfeid : hd.id < fresh := hids hd hfe
      have hunfold : insert_front_matter (hd :: tl) fresh title author year
          = (frontMatterElems fresh title author year).reverse.foldl
              (fun b x => addpreviousMove b hd.id x)
              ((frontMatterElems fresh title author year).foldl addParagraph (hd :: tl)) := rfl
      rw [hunfold]
      have hbase := foldl_addParagraph_getLast (frontMatterElems fresh title author year)
        (hd :: tl) g hlast hgmem hkind
      have hfe1 : hd ∈ (frontMatterElems fresh title author year).foldl addParagraph (hd :: tl) :=
        foldl_addParagraph_mem _ _ _ hfe
      exact (fm_move_fold_inv fresh g hd _ _ hbase.1 hfe1 hgid hfeid
        (fun x hx => frontMatterElems_id_ge fresh title author year x
          (List.mem_reverse.mp hx))).1
    · set body1 := (tocElems fresh).foldl addParagraph (hd :: tl) with hbody1
      set pos := min (frontMatterCount body1) (body1.length - 1) with hposdef
      have hunfold : insert_toc (hd :: tl) fresh =
          (tocElems fresh).reverse.foldl
            (fun b x => if pos < b.length then insertMoveAt b pos x else appendMove b x)
            body1 := rfl
      have hbase := foldl_addParagraph_getLast (tocElems fresh) (hd :: tl) g hlast hgmem hkind
      have hmem4 : ∀ t ∈ tocElems fresh, t ∈ body1 :=
        fun t ht => foldl_addParagraph_all_mem _ _ _ ht
      have hlen1 : body1.length = tl.length + 5 := by
        rw [hbody1, foldl_addParagraph_length]
        simp [tocElems]
      have hposlt : pos < body1.length := by
        rw [hposdef]
        omega
      rw [hunfold]
      exact (toc_move_fold_inv fresh pos g body1.length (tocElems fresh).reverse body1
        (fun x hx => List.mem_reverse.mp hx) hbase.1 hmem4 rfl hposlt hgid).1

/-- A concrete two-element body ending in its `w:sectPr`, for the C10
witness. -/
def c10Body : List Elem :=
  [ { id := 5, runs := [{ text := "Y" }] }
  , { id := 6, kind := EKind.sectPr } ]

/-- The trailing section-properties element of `c10Body`. -/
def c10Sect : Elem := { id := 6, kind := EKind.sectPr }

theorem C10_sectPr_stays_last_witness :
    (c10Body.getLast? = some c10Sect ∧ c10Sect.kind = EKind.sectPr ∧
      ∀ a ∈ c10Body, a.id < 7) ∧
    ((insert_front_matter c10Body 7 "T" "A" 2025).getLast? = some c10Sect ∧
      (insert_toc c10Body 7).getLast? = some c10Sect) :=
  ⟨⟨by decide, by decide, by decide⟩,
   C10_sectPr_stays_last c10Body 7 "T" "A" 2025 c10Sect (by decide) (by decide) (by decide)⟩

/-! ## C3: TOC placement -/

/-- An original body of `n` plain content paragraphs (identities
`0 … n-1`). -/
def parasN (n : Nat) : List Elem := (List.range n).map (fun i => { id := i })

/-- The trailing section-properties element, with identity `n`. -/
def sectEl (n : Nat) : Elem := { id := n, kind := EKind.sectPr }

/-- An original body: `n` paragraphs followed by the `w:sectPr`. -/
def c3Body (n : Nat) : List Elem := parasN n ++ [sectEl n]

theorem parasN_mem_id (k : Nat) (a : Elem) (ha : a ∈ parasN k) : a.id < k := by
  rcases List.mem_map.mp ha with ⟨i, hi, rfl⟩
  simpa using List.mem_range.mp hi

theorem parasN_mem_kind (k : Nat) (a : Elem) (ha : a ∈ parasN k) : a.kind = EKind.p := by
  rcases List.mem_map.mp ha with ⟨i, hi, rfl⟩
  rfl

theorem parasN_length (k : Nat) : (parasN k).length = k := by
  simp [parasN]

theorem parasN_take (n : Nat) (h : 31 ≤ n) : (parasN n).take 31 = parasN 31 := by
  unfold parasN
  rw [← List.map_take, List.take_range, Nat.min_eq_left h]

theorem mem_drop_parasN (n k : Nat) (a : Elem) (ha : a ∈ (parasN n).drop k) :
    k ≤ a.id ∧ a.id < n := by
  unfold parasN at ha
  rw [← List.map_drop] at ha
  rcases List.mem_map.mp ha with ⟨i, hi, rfl⟩
  have h2 : i < n := List.mem_range.mp (List.mem_of_mem_drop hi)
  rcases List.mem_iff_getElem.mp hi with ⟨j, hj, hget⟩
  rw [List.getElem_drop, List.getElem_range] at hget
  simp only []
  omega

/-- Counting walk below the cap: an all-paragraph block of total length
at most 30 is counted through without breaking. -/
theorem fmCountGo_no_break (l : List Elem) (rest : List Elem) (c : Nat)
    (hp : ∀ x ∈ l, x.kind = EKind.p) (hle : c + l.length ≤ 30) :
    fmCountGo (l ++ rest) c = fmCountGo rest (c + l.length) := by
  induction l generalizing c with
  | nil => simp [fmCountGo]
  | cons x l ih =>
    have hx : x.kind = EKind.p := hp x (by simp)
    have hnotbreak : ¬ 30 < c + 1 := by
      simp only [List.length_cons] at hle
      omega
    show (if x.kind = EKind.p then
        if 30 < c + 1 then c + 1 else fmCountGo (l ++ rest) (c + 1)
      else fmCountGo (l ++ rest) c) = fmCountGo rest (c + (x :: l).length)
    rw [if_pos hx, if_neg hnotbreak,
      ih (c + 1) (fun z hz => hp z (by simp [hz])) (by simp only [List.length_cons] at hle; omega)]
    congr 1
    simp only [List.length_cons]
    omega

/-- Counting walk past the cap: an all-paragraph block pushing the count
beyond 30 makes the walk return 31. -/
theorem fmCountGo_break (l : List Elem) (rest : List Elem) (c : Nat)
    (hp : ∀ x ∈ l, x.kind = EKind.p) (hc : c ≤ 30) (hgt : 30 < c + l.length) :
    fmCountGo (l ++ rest) c = 31 := by
  induction l generalizing c with
  | nil => simp at hgt; omega
  | cons x l ih =>
    have hx : x.kind = EKind.p := hp x (by simp)
    show (if x.kind = EKind.p then
        if 30 < c + 1 then c + 1 else fmCountGo (l ++ rest) (c + 1)
      else fmCountGo (l ++ rest) c) = 31
    rw [if_pos hx]
    by_cases hbr : 30 < c + 1
    · rw [if_pos hbr]
      omega
    · rw [if_neg hbr]
      exact ih (c + 1) (fun z hz => hp z (by simp [hz])) (by omega)
        (by simp only [List.length_cons] at hgt; omega)

theorem fmCountGo_single_not_p (s : Elem) (c : Nat) (hs : ¬ s.kind = EKind.p) :
    fmCountGo [s] c = c := by
  simp [fmCountGo, hs]

/-- Python `add_paragraph` on a body whose section-properties element is
preceded only by non-`sectPr` elements: the new paragraph lands directly
before that element. -/
theorem addParagraph_into (P : List Elem) (s : Elem) (rest : List Elem) (e : Elem)
    (hP : ∀ x ∈ P, ¬ x.kind = EKind.sectPr) (hs : s.kind = EKind.sectPr) :
    addParagraph (P ++ s :: rest) e = P ++ e :: s :: rest := by
  induction P with
  | nil => simp [addParagraph, hs]
  | cons a P ih =>
    have ha : ¬ a.kind = EKind.sectPr := hP a (by simp)
    show (if a.kind = EKind.sectPr then e :: a :: (P ++ s :: rest)
        else a :: addParagraph (P ++ s :: rest) e) = a :: (P ++ e :: s :: rest)
    rw [if_neg ha, ih (fun z hz => hP z (by simp [hz]))]

/-- Creating the fragment elements appends them, in order, directly
before the trailing `w:sectPr`. -/
theorem foldl_addParagraph_into (es : List Elem) (P : List Elem) (s : Elem)
    (hP : ∀ x ∈ P, ¬ x.kind = EKind.sectPr) (hs : s.kind = EKind.sectPr)
    (hes : ∀ x ∈ es, ¬ x.kind = EKind.sectPr) :
    es.foldl addParagraph (P ++ [s]) = P ++ es ++ [s] := by
  induction es generalizing P with
  | nil => simp
  | cons e es ih =>
    have hP' : ∀ x ∈ P ++ [e], ¬ x.kind = EKind.sectPr := by
      intro x hx
      rcases List.mem_append.mp hx with h | h
      · exact hP x h
      · simp only [List.mem_singleton] at h
        subst h
        exact hes x (by simp)
    rw [List.foldl_cons,
      show addParagraph (P ++ [s]) e = (P ++ [e]) ++ [s] by
        rw [addParagraph_into P s [] e hP hs]; simp,
      ih (P ++ [e]) hP' (fun z hz => hes z (by simp [hz]))]
    simp

/-- Python `body.insert(pos, x)` with a clean identity-disjoint front block of
length `pos`: the operation happens entirely in the suffix. -/
theorem insertMoveAt_strip (A rest : List Elem) (x : Elem) (pos : Nat)
    (hlen : A.length = pos) (hne : rest ≠ [])
    (hdisj : ∀ a ∈ A, ∀ b ∈ rest, a.id ≠ b.id)
    (hxA : ∀ a ∈ A, a.id ≠ x.id) :
    insertMoveAt (A ++ rest) pos x = A ++ insertMoveAt rest 0 x := by
  cases rest with
  | nil => exact absurd rfl hne
  | cons t tail =>
    have hget : (A ++ t :: tail)[pos]? = some t := by
      subst hlen
      rw [List.getElem?_append_right (Nat.le_refl _)]
      simp
    unfold insertMoveAt
    rw [hget]
    simp only [List.getElem?_cons_zero]
    by_cases hid : t.id = x.id
    · rw [if_pos hid, if_pos hid]
    · rw [if_neg hid, if_neg hid,
        eraseId_append_left A (t :: tail) x.id hxA,
        insertBeforeId_append_left A _ t.id x
          (fun a ha => hdisj a ha t (by simp))]

/-- Moving `x` to position 0 of a body whose leading block does not
contain it: `x` is detached from where it sits and re-linked at the
front. -/
theorem insertMoveAt_zero (P rest : List Elem) (x : Elem)
    (hP : ∀ a ∈ P, a.id ≠ x.id) (hne : P ≠ []) :
    insertMoveAt (P ++ x :: rest) 0 x = x :: (P ++ rest) := by
  cases P with
  | nil => exact absurd rfl hne
  | cons p0 P' =>
    have hp0 : p0.id ≠ x.id := hP p0 (by simp)
    unfold insertMoveAt
    simp only [List.cons_append, List.getElem?_cons_zero]
    rw [if_neg hp0]
    show insertBeforeId (eraseId (p0 :: (P' ++ x :: rest)) x.id) p0.id x = _
    rw [show eraseId (p0 :: (P' ++ x :: rest)) x.id = p0 :: (P' ++ rest) by
        show (if p0.id = x.id then P' ++ x :: rest
          else p0 :: eraseId (P' ++ x :: rest) x.id) = p0 :: (P' ++ rest)
        rw [if_neg hp0, eraseId_append_left P' _ x.id (fun a ha => hP a (by simp [ha]))]
        rw [eraseId_cons_self],
      insertBeforeId_cons_self]

/-- Moving `x` to the position of a trailing `w:sectPr`: `x` is
detached and re-linked directly before that final element. -/
theorem insertMoveAt_last (B C : List Elem) (x s : Elem) (pos : Nat)
    (hlen : B.length + C.length + 1 = pos)
    (hxB : ∀ a ∈ B, a.id ≠ x.id) (hxC : ∀ a ∈ C, a.id ≠ x.id) (hxs : s.id ≠ x.id)
    (hsB : ∀ a ∈ B, a.id ≠ s.id) (hsC : ∀ a ∈ C, a.id ≠ s.id) :
    insertMoveAt (B ++ x :: C ++ [s]) pos x = B ++ C ++ [x, s] := by
  simp only [List.append_assoc, List.cons_append]
  have hget : (B ++ (x :: (C ++ [s])))[pos]? = some s := by
    rw [List.getElem?_append_right (by omega),
      show pos - B.length = C.length + 1 by omega,
      List.getElem?_cons_succ,
      List.getElem?_append_right (Nat.le_refl _)]
    simp
  have hstep : insertMoveAt (B ++ (x :: (C ++ [s]))) pos x
      = if s.id = x.id then B ++ (x :: (C ++ [s]))
        else insertBeforeId (eraseId (B ++ (x :: (C ++ [s]))) x.id) s.id x := by
    unfold insertMoveAt
    rw [hget]
  rw [hstep, if_neg hxs,
    show eraseId (B ++ (x :: (C ++ [s]))) x.id = B ++ (C ++ [s]) by
      rw [eraseId_append_left B _ x.id hxB, eraseId_cons_self],
    insertBeforeId_append_left B _ s.id x hsB,
    insertBeforeId_append_left C [s] s.id x hsC,
    show insertBeforeId [s] s.id x = [x, s] from insertBeforeId_cons_self s [] x]

/-- Reformulation of `insert_toc` with its `let` bindings expanded. -/
theorem insert_toc_eq (body : List Elem) (fresh : Nat) :
    insert_toc body fresh =
      (tocElems fresh).reverse.foldl
        (fun b x =>
          if min (frontMatterCount ((tocElems fresh).foldl addParagraph body))
              (((tocElems fresh).foldl addParagraph body).length - 1) < b.length
          then insertMoveAt b
            (min (frontMatterCount ((tocElems fresh).foldl addParagraph body))
              (((tocElems fresh).foldl addParagraph body).length - 1)) x
          else appendMove b x)
        ((tocElems fresh).foldl addParagraph body) := rfl

theorem tocElems_kind_p (f : Nat) (x : Elem) (hx : x ∈ tocElems f) :
    x.kind = EKind.p := by
  simp only [tocElems, List.mem_cons, List.not_mem_nil, or_false] at hx
  rcases hx with rfl | rfl | rfl | rfl <;> rfl

/-- The body after the four `add_paragraph` calls of `_insert_toc`:
TOC elements in creation order directly before the `w:sectPr`. -/
theorem c3_body1 (n : Nat) :
    (tocElems (n + 1)).foldl addParagraph (c3Body n)
      = parasN n ++ tocElems (n + 1) ++ [sectEl n] := by
  have h := foldl_addParagraph_into (tocElems (n + 1)) (parasN n) (sectEl n)
    (fun x hx => by rw [parasN_mem_kind n x hx]; intro hc; cases hc)
    rfl
    (fun x hx => by rw [tocElems_kind_p (n + 1) x hx]; intro hc; cases hc)
  exact h

/-- The paragraph count `_insert_toc` computes over the extended body:
31 for a long document (the loop breaks only after the count exceeds
30), `n + 4` for a short one (the four TOC paragraphs count too). -/
theorem c3_count (n : Nat) :
    (31 ≤ n → frontMatterCount (parasN n ++ tocElems (n + 1) ++ [sectEl n]) = 31) ∧
    (n ≤ 26 → frontMatterCount (parasN n ++ tocElems (n + 1) ++ [sectEl n]) = n + 4) := by
  have hallp : ∀ x ∈ parasN n ++ tocElems (n + 1), x.kind = EKind.p := by
    intro x hx
    rcases List.mem_append.mp hx with h | h
    · exact parasN_mem_kind n x h
    · exact tocElems_kind_p (n + 1) x h
  have hlen : (parasN n ++ tocElems (n + 1)).length = n + 4 := by
    simp [parasN_length, tocElems]
  constructor
  · intro h
    unfold frontMatterCount
    rw [fmCountGo_break (parasN n ++ tocElems (n + 1)) [sectEl n] 0 hallp (by omega)
      (by omega)]
  · intro h
    unfold frontMatterCount
    rw [fmCountGo_no_break (parasN n ++ tocElems (n + 1)) [sectEl n] 0 hallp (by omega),
      fmCountGo_single_not_p (sectEl n) _ (by intro hc; cases hc)]
    omega

theorem c3_body1_length (n : Nat) :
    (parasN n ++ tocElems (n + 1) ++ [sectEl n]).length = n + 5 := by
  simp [parasN_length, tocElems]

@[simp] theorem emptyPara_id (k : Nat) : (emptyPara k).id = k := rfl

@[simp] theorem pageBreakPara_id (k : Nat) : (pageBreakPara k).id = k := rfl

@[simp] theorem tocTitlePara_id (k : Nat) : (tocTitlePara k).id = k := rfl

@[simp] theorem tocFieldPara_id (k : Nat) : (tocFieldPara k).id = k := rfl

@[simp] theorem sectEl_id (k : Nat) : (sectEl k).id = k := rfl

@[simp] theorem centeredPara_id (k : Nat) (txt : String) (sz : Int) (b i : Option Bool) :
    (centeredPara k txt sz b i).id = k := rfl

/-- The four reversed-order `body.insert` moves of `_insert_toc` on a
long body (at least 31 original paragraphs), at insert position 31:
each element is re-linked directly before the one inserted previously,
so the block comes out in creation order at position 31. -/
theorem c3_fold_case1 (n : Nat) (h : 31 ≤ n) :
    [pageBreakPara (n + 1 + 3), tocFieldPara (n + 1 + 2), emptyPara (n + 1 + 1),
        tocTitlePara (n + 1)].foldl
      (fun b x => if 31 < b.length then insertMoveAt b 31 x else appendMove b x)
      (parasN n ++ tocElems (n + 1) ++ [sectEl n])
    = (parasN n).take 31 ++ tocElems (n + 1) ++ ((parasN n).drop 31 ++ [sectEl n]) := by
  have hA : ((parasN n).take 31).length = 31 := by
    simp only [List.length_take, parasN_length]
    omega
  have hD : ((parasN n).drop 31).length = n - 31 := by
    simp [parasN_length]
  have hAid : ∀ a ∈ (parasN n).take 31, a.id < 31 := by
    rw [parasN_take n h]
    exact fun a ha => parasN_mem_id 31 a ha
  have hDlo : ∀ a ∈ (parasN n).drop 31, 31 ≤ a.id := fun a ha => (mem_drop_parasN n 31 a ha).1
  have hDhi : ∀ a ∈ (parasN n).drop 31, a.id < n := fun a ha => (mem_drop_parasN n 31 a ha).2
  have hshape0 : parasN n ++ tocElems (n + 1) ++ [sectEl n]
      = (parasN n).take 31 ++ ((parasN n).drop 31
          ++ [tocTitlePara (n + 1), emptyPara (n + 1 + 1), tocFieldPara (n + 1 + 2),
              pageBreakPara (n + 1 + 3), sectEl n]) := by
    conv_rhs => rw [← List.append_assoc, List.take_append_drop]
    simp [tocElems]
  rw [hshape0]
  simp only [List.foldl_cons, List.foldl_nil]
  have e1 : (if 31 < ((parasN n).take 31 ++ ((parasN n).drop 31
          ++ [tocTitlePara (n + 1), emptyPara (n + 1 + 1), tocFieldPara (n + 1 + 2),
              pageBreakPara (n + 1 + 3), sectEl n])).length
      then insertMoveAt ((parasN n).take 31 ++ ((parasN n).drop 31
          ++ [tocTitlePara (n + 1), emptyPara (n + 1 + 1), tocFieldPara (n + 1 + 2),
              pageBreakPara (n + 1 + 3), sectEl n])) 31 (pageBreakPara (n + 1 + 3))
      else appendMove ((parasN n).take 31 ++ ((parasN n).drop 31
          ++ [tocTitlePara (n + 1), emptyPara (n + 1 + 1), tocFieldPara (n + 1 + 2),
              pageBreakPara (n + 1 + 3), sectEl n])) (pageBreakPara (n + 1 + 3)))
      = (parasN n).take 31 ++ (pageBreakPara (n + 1 + 3) :: ((parasN n).drop 31
          ++ [tocTitlePara (n + 1), emptyPara (n + 1 + 1), tocFieldPara (n + 1 + 2),
              sectEl n])) := by
    rw [if_pos (by
      simp only [List.length_append, List.length_cons, List.length_nil, hA, hD]
      omega)]
    rw [insertMoveAt_strip _ _ _ 31 hA (by simp)
      (by
        intro a ha b hb
        have h1 := hAid a ha
        rcases List.mem_append.mp hb with hb | hb
        · have := hDlo b hb
          omega
        · simp only [List.mem_cons, List.not_mem_nil, or_false] at hb
          rcases hb with rfl | rfl | rfl | rfl | rfl <;> simp <;> omega)
      (by
        intro a ha
        have h1 := hAid a ha
        simp
        omega)]
    congr 1
    rw [show (parasN n).drop 31
          ++ [tocTitlePara (n + 1), emptyPara (n + 1 + 1), tocFieldPara (n + 1 + 2),
              pageBreakPara (n + 1 + 3), sectEl n]
        = ((parasN n).drop 31 ++ [tocTitlePara (n + 1), emptyPara (n + 1 + 1),
            tocFieldPara (n + 1 + 2)])
            ++ pageBreakPara (n + 1 + 3) :: [sectEl n] by simp]
    rw [insertMoveAt_zero _ _ _
      (by
        intro a ha
        rcases List.mem_append.mp ha with hb | hb
        · have h1 := hDhi a hb
          simp
          omega
        · simp only [List.mem_cons, List.not_mem_nil, or_false] at hb
          rcases hb with rfl | rfl | rfl <;> simp)
      (by simp)]
    simp
  rw [e1]
  have e2 : (if 31 < ((parasN n).take 31 ++ (pageBreakPara (n + 1 + 3) :: ((parasN n).drop 31
          ++ [tocTitlePara (n + 1), emptyPara (n + 1 + 1), tocFieldPara (n + 1 + 2),
              sectEl n]))).length
      then insertMoveAt ((parasN n).take 31 ++ (pageBreakPara (n + 1 + 3) :: ((parasN n).drop 31
          ++ [tocTitlePara (n + 1), emptyPara (n + 1 + 1), tocFieldPara (n + 1 + 2),
              sectEl n]))) 31 (tocFieldPara (n + 1 + 2))
      else appendMove ((parasN n).take 31 ++ (pageBreakPara (n + 1 + 3) :: ((parasN n).drop 31
          ++ [tocTitlePara (n + 1), emptyPara (n + 1 + 1), tocFieldPara (n + 1 + 2),
              sectEl n]))) (tocFieldPara (n + 1 + 2)))
      = (parasN n).take 31 ++ (tocFieldPara (n + 1 + 2) :: pageBreakPara (n + 1 + 3)
          :: ((parasN n).drop 31
          ++ [tocTitlePara (n + 1), emptyPara (n + 1 + 1), sectEl n])) := by
    rw [if_pos (by
      simp only [List.length_append, List.length_cons, List.length_nil, hA, hD]
      omega)]
    rw [insertMoveAt_strip _ _ _ 31 hA (by simp)
      (by
        intro a ha b hb
        have h1 := hAid a ha
        rcases List.mem_cons.mp hb with rfl | hb
        · simp
          omega
        rcases List.mem_append.mp hb with hb | hb
        · have := hDlo b hb
          omega
        · simp only [List.mem_cons, List.not_mem_nil, or_false] at hb
          rcases hb with rfl | rfl | rfl | rfl <;> simp <;> omega)
      (by
        intro a ha
        have h1 := hAid a ha
        simp
        omega)]
    congr 1
    rw [show pageBreakPara (n + 1 + 3) :: ((parasN n).drop 31
          ++ [tocTitlePara (n + 1), emptyPara (n + 1 + 1), tocFieldPara (n + 1 + 2), sectEl n])
        = (pageBreakPara (n + 1 + 3) :: ((parasN n).drop 31
            ++ [tocTitlePara (n + 1), emptyPara (n + 1 + 1)]))
            ++ tocFieldPara (n + 1 + 2) :: [sectEl n] by simp]
    rw [insertMoveAt_zero _ _ _
      (by
        intro a ha
        rcases List.mem_cons.mp ha with rfl | ha
        · simp
        rcases List.mem_append.mp ha with hb | hb
        · have h1 := hDhi a hb
          simp
          omega
        · simp only [List.mem_cons, List.not_mem_nil, or_false] at hb
          rcases hb with rfl | rfl <;> simp)
      (by simp)]
    simp
  rw [e2]
  have e3 : (if 31 < ((parasN n).take 31 ++ (tocFieldPara (n + 1 + 2) :: pageBreakPara (n + 1 + 3)
          :: ((parasN n).drop 31
          ++ [tocTitlePara (n + 1), emptyPara (n + 1 + 1), sectEl n]))).length
      then insertMoveAt ((parasN n).take 31 ++ (tocFieldPara (n + 1 + 2)
          :: pageBreakPara (n + 1 + 3) :: ((parasN n).drop 31
          ++ [tocTitlePara (n + 1), emptyPara (n + 1 + 1), sectEl n]))) 31 (emptyPara (n + 1 + 1))
      else appendMove ((parasN n).take 31 ++ (tocFieldPara (n + 1 + 2)
          :: pageBreakPara (n + 1 + 3) :: ((parasN n).drop 31
          ++ [tocTitlePara (n + 1), emptyPara (n + 1 + 1), sectEl n]))) (emptyPara (n + 1 + 1)))
      = (parasN n).take 31 ++ (emptyPara (n + 1 + 1) :: tocFieldPara (n + 1 + 2)
          :: pageBreakPara (n + 1 + 3) :: ((parasN n).drop 31
          ++ [tocTitlePara (n + 1), sectEl n])) := by
    rw [if_pos (by
      simp only [List.length_append, List.length_cons, List.length_nil, hA, hD]
      omega)]
    rw [insertMoveAt_strip _ _ _ 31 hA (by simp)
      (by
        intro a ha b hb
        have h1 := hAid a ha
        rcases List.mem_cons.mp hb with rfl | hb
        · simp
          omega
        rcases List.mem_cons.mp hb with rfl | hb
        · simp
          omega
        rcases List.mem_append.mp hb with hb | hb
        · have := hDlo b hb
          omega
        · simp only [List.mem_cons, List.not_mem_nil, or_false] at hb
          rcases hb with rfl | rfl | rfl <;> simp <;> omega)
      (by
        intro a ha
        have h1 := hAid a ha
        simp
        omega)]
    congr 1
    rw [show tocFieldPara (n + 1 + 2) :: pageBreakPara (n + 1 + 3) :: ((parasN n).drop 31
          ++ [tocTitlePara (n + 1), emptyPara (n + 1 + 1), sectEl n])
        = (tocFieldPara (n + 1 + 2) :: pageBreakPara (n + 1 + 3) :: ((parasN n).drop 31
            ++ [tocTitlePara (n + 1)]))
            ++ emptyPara (n + 1 + 1) :: [sectEl n] by simp]
    rw [insertMoveAt_zero _ _ _
      (by
        intro a ha
        rcases List.mem_cons.mp ha with rfl | ha
        · simp
        rcases List.mem_cons.mp ha with rfl | ha
        · simp
        rcases List.mem_append.mp ha with hb | hb
        · have h1 := hDhi a hb
          simp
          omega
        · simp only [List.mem_cons, List.not_mem_nil, or_false] at hb
          rcases hb with rfl
          simp)
      (by simp)]
    simp
  rw [e3]
  have e4 : (if 31 < ((parasN n).take 31 ++ (emptyPara (n + 1 + 1) :: tocFieldPara (n + 1 + 2)
          :: pageBreakPara (n + 1 + 3) :: ((parasN n).drop 31
          ++ [tocTitlePara (n + 1), sectEl n]))).length
      then insertMoveAt ((parasN n).take 31 ++ (emptyPara (n + 1 + 1) :: tocFieldPara (n + 1 + 2)
          :: pageBreakPara (n + 1 + 3) :: ((parasN n).drop 31
          ++ [tocTitlePara (n + 1), sectEl n]))) 31 (tocTitlePara (n + 1))
      else appendMove ((parasN n).take 31 ++ (emptyPara (n + 1 + 1) :: tocFieldPara (n + 1 + 2)
          :: pageBreakPara (n + 1 + 3) :: ((parasN n).drop 31
          ++ [tocTitlePara (n + 1), sectEl n]))) (tocTitlePara (n + 1)))
      = (parasN n).take 31 ++ (tocTitlePara (n + 1) :: emptyPara (n + 1 + 1)
          :: tocFieldPara (n + 1 + 2) :: pageBreakPara (n + 1 + 3)
          :: ((parasN n).drop 31 ++ [sectEl n])) := by
    rw [if_pos (by
      simp only [List.length_append, List.length_cons, List.length_nil, hA, hD]
      omega)]
    rw [insertMoveAt_strip _ _ _ 31 hA (by simp)
      (by
        intro a ha b hb
        have h1 := hAid a ha
        rcases List.mem_cons.mp hb with rfl | hb
        · simp
          omega
        rcases List.mem_cons.mp hb with rfl | hb
        · simp
          omega
        rcases List.mem_cons.mp hb with rfl | hb
        · simp
          omega
        rcases List.mem_append.mp hb with hb | hb
        · have := hDlo b hb
          omega
        · simp only [List.mem_cons, List.not_mem_nil, or_false] at hb
          rcases hb with rfl | rfl <;> simp <;> omega)
      (by
        intro a ha
        have h1 := hAid a ha
        simp
        omega)]
    congr 1
    rw [show emptyPara (n + 1 + 1) :: tocFieldPara (n + 1 + 2) :: pageBreakPara (n + 1 + 3)
          :: ((parasN n).drop 31 ++ [tocTitlePara (n + 1), sectEl n])
        = (emptyPara (n + 1 + 1) :: tocFieldPara (n + 1 + 2) :: pageBreakPara (n + 1 + 3)
            :: (parasN n).drop 31)
            ++ tocTitlePara (n + 1) :: [sectEl n] by simp]
    rw [insertMoveAt_zero _ _ _
      (by
        intro a ha
        rcases List.mem_cons.mp ha with rfl | ha
        · simp
        rcases List.mem_cons.mp ha with rfl | ha
        · simp
        rcases List.mem_cons.mp ha with rfl | ha
        · simp
        have h1 := hDhi a ha
        simp
        omega)
      (by simp)]
    simp
  rw [e4]
  simp [tocElems]

/-- The four reversed-order `body.insert` moves of `_insert_toc` on a
short body (at most 26 original paragraphs): the insert position points
at the trailing `w:sectPr`, each element is re-linked directly before
it — after the previously moved ones — so the block lands at the end of
the body in **reversed** creation order. -/
theorem c3_fold_case2 (n : Nat) (h : n ≤ 26) :
    [pageBreakPara (n + 1 + 3), tocFieldPara (n + 1 + 2), emptyPara (n + 1 + 1),
        tocTitlePara (n + 1)].foldl
      (fun b x => if n + 4 < b.length then insertMoveAt b (n + 4) x else appendMove b x)
      (parasN n ++ tocElems (n + 1) ++ [sectEl n])
    = parasN n ++ (tocElems (n + 1)).reverse ++ [sectEl n] := by
  have hshape0 : parasN n ++ tocElems (n + 1) ++ [sectEl n]
      = parasN n ++ [tocTitlePara (n + 1), emptyPara (n + 1 + 1), tocFieldPara (n + 1 + 2),
          pageBreakPara (n + 1 + 3), sectEl n] := by
    simp [tocElems]
  rw [hshape0]
  simp only [List.foldl_cons, List.foldl_nil]
  have hplen : (parasN n).length = n := parasN_length n
  have e1 : (if n + 4 < (parasN n ++ [tocTitlePara (n + 1), emptyPara (n + 1 + 1),
          tocFieldPara (n + 1 + 2), pageBreakPara (n + 1 + 3), sectEl n]).length
      then insertMoveAt (parasN n ++ [tocTitlePara (n + 1), emptyPara (n + 1 + 1),
          tocFieldPara (n + 1 + 2), pageBreakPara (n + 1 + 3), sectEl n]) (n + 4)
          (pageBreakPara (n + 1 + 3))
      else appendMove (parasN n ++ [tocTitlePara (n + 1), emptyPara (n + 1 + 1),
          tocFieldPara (n + 1 + 2), pageBreakPara (n + 1 + 3), sectEl n])
          (pageBreakPara (n + 1 + 3)))
      = parasN n ++ [tocTitlePara (n + 1), emptyPara (n + 1 + 1),
          tocFieldPara (n + 1 + 2), pageBreakPara (n + 1 + 3), sectEl n] := by
    rw [if_pos (by
      simp only [List.length_append, List.length_cons, List.length_nil, hplen]
      omega)]
    rw [show parasN n ++ [tocTitlePara (n + 1), emptyPara (n + 1 + 1),
          tocFieldPara (n + 1 + 2), pageBreakPara (n + 1 + 3), sectEl n]
        = (parasN n ++ [tocTitlePara (n + 1), emptyPara (n + 1 + 1), tocFieldPara (n + 1 + 2)])
            ++ pageBreakPara (n + 1 + 3) :: ([] : List Elem) ++ [sectEl n] by simp]
    rw [insertMoveAt_last _ _ _ _ (n + 4)
      (by simp only [List.length_append, List.length_cons, List.length_nil, hplen] <;> omega)
      (by
        intro a ha
        rcases List.mem_append.mp ha with hb | hb
        · have := parasN_mem_id n a hb
          simp
          omega
        · simp only [List.mem_cons, List.not_mem_nil, or_false] at hb
          rcases hb with rfl | rfl | rfl <;> simp <;> omega)
      (by intro a ha; simp at ha)
      (by simp <;> omega)
      (by
        intro a ha
        rcases List.mem_append.mp ha with hb | hb
        · have := parasN_mem_id n a hb
          simp
          omega
        · simp only [List.mem_cons, List.not_mem_nil, or_false] at hb
          rcases hb with rfl | rfl | rfl <;> simp <;> omega)
      (by intro a ha; simp at ha)]
    simp
  rw [e1]
  have e2 : (if n + 4 < (parasN n ++ [tocTitlePara (n + 1), emptyPara (n + 1 + 1),
          tocFieldPara (n + 1 + 2), pageBreakPara (n + 1 + 3), sectEl n]).length
      then insertMoveAt (parasN n ++ [tocTitlePara (n + 1), emptyPara (n + 1 + 1),
          tocFieldPara (n + 1 + 2), pageBreakPara (n + 1 + 3), sectEl n]) (n + 4)
          (tocFieldPara (n + 1 + 2))
      else appendMove (parasN n ++ [tocTitlePara (n + 1), emptyPara (n + 1 + 1),
          tocFieldPara (n + 1 + 2), pageBreakPara (n + 1 + 3), sectEl n])
          (tocFieldPara (n + 1 + 2)))
      = parasN n ++ [tocTitlePara (n + 1), emptyPara (n + 1 + 1),
          pageBreakPara (n + 1 + 3), tocFieldPara (n + 1 + 2), sectEl n] := by
    rw [if_pos (by
      simp only [List.length_append, List.length_cons, List.length_nil, hplen]
      omega)]
    rw [show parasN n ++ [tocTitlePara (n + 1), emptyPara (n + 1 + 1),
          tocFieldPara (n + 1 + 2), pageBreakPara (n + 1 + 3), sectEl n]
        = (parasN n ++ [tocTitlePara (n + 1), emptyPara (n + 1 + 1)])
            ++ tocFieldPara (n + 1 + 2) :: [pageBreakPara (n + 1 + 3)] ++ [sectEl n] by simp]
    rw [insertMoveAt_last _ _ _ _ (n + 4)
      (by simp only [List.length_append, List.length_cons, List.length_nil, hplen] <;> omega)
      (by
        intro a ha
        rcases List.mem_append.mp ha with hb | hb
        · have := parasN_mem_id n a hb
          simp
          omega
        · simp only [List.mem_cons, List.not_mem_nil, or_false] at hb
          rcases hb with rfl | rfl <;> simp <;> omega)
      (by
        intro a ha
        simp only [List.mem_singleton] at ha
        subst ha
        simp <;> omega)
      (by simp <;> omega)
      (by
        intro a ha
        rcases List.mem_append.mp ha with hb | hb
        · have := parasN_mem_id n a hb
          simp
          omega
        · simp only [List.mem_cons, List.not_mem_nil, or_false] at hb
          rcases hb with rfl | rfl <;> simp <;> omega)
      (by
        intro a ha
        simp only [List.mem_singleton] at ha
        subst ha
        simp <;> omega)]
    simp
  rw [e2]
  have e3 : (if n + 4 < (parasN n ++ [tocTitlePara (n + 1), emptyPara (n + 1 + 1),
          pageBreakPara (n + 1 + 3), tocFieldPara (n + 1 + 2), sectEl n]).length
      then insertMoveAt (parasN n ++ [tocTitlePara (n + 1), emptyPara (n + 1 + 1),
          pageBreakPara (n + 1 + 3), tocFieldPara (n + 1 + 2), sectEl n]) (n + 4)
          (emptyPara (n + 1 + 1))
      else appendMove (parasN n ++ [tocTitlePara (n + 1), emptyPara (n + 1 + 1),
          pageBreakPara (n + 1 + 3), tocFieldPara (n + 1 + 2), sectEl n])
          (emptyPara (n + 1 + 1)))
      = parasN n ++ [tocTitlePara (n + 1), pageBreakPara (n + 1 + 3),
          tocFieldPara (n + 1 + 2), emptyPara (n + 1 + 1), sectEl n] := by
    rw [if_pos (by
      simp only [List.length_append, List.length_cons, List.length_nil, hplen]
      omega)]
    rw [show parasN n ++ [tocTitlePara (n + 1), emptyPara (n + 1 + 1),
          pageBreakPara (n + 1 + 3), tocFieldPara (n + 1 + 2), sectEl n]
        = (parasN n ++ [tocTitlePara (n + 1)])
            ++ emptyPara (n + 1 + 1) :: [pageBreakPara (n + 1 + 3), tocFieldPara (n + 1 + 2)]
            ++ [sectEl n] by simp]
    rw [insertMoveAt_last _ _ _ _ (n + 4)
      (by simp only [List.length_append, List.length_cons, List.length_nil, hplen] <;> omega)
      (by
        intro a ha
        rcases List.mem_append.mp ha with hb | hb
        · have := parasN_mem_id n a hb
          simp
          omega
        · simp only [List.mem_cons, List.not_mem_nil, or_false] at hb
          rcases hb with rfl
          simp <;> omega)
      (by
        intro a ha
        simp only [List.mem_cons, List.not_mem_nil, or_false] at ha
        rcases ha with rfl | rfl <;> simp <;> omega)
      (by simp <;> omega)
      (by
        intro a ha
        rcases List.mem_append.mp ha with hb | hb
        · have := parasN_mem_id n a hb
          simp
          omega
        · simp only [List.mem_cons, List.not_mem_nil, or_false] at hb
          rcases hb with rfl
          simp <;> omega)
      (by
        intro a ha
        simp only [List.mem_cons, List.not_mem_nil, or_false] at ha
        rcases ha with rfl | rfl <;> simp <;> omega)]
    simp
  rw [e3]
  have e4 : (if n + 4 < (parasN n ++ [tocTitlePara (n + 1), pageBreakPara (n + 1 + 3),
          tocFieldPara (n + 1 + 2), emptyPara (n + 1 + 1), sectEl n]).length
      then insertMoveAt (parasN n ++ [tocTitlePara (n + 1), pageBreakPara (n + 1 + 3),
          tocFieldPara (n + 1 + 2), emptyPara (n + 1 + 1), sectEl n]) (n + 4)
          (tocTitlePara (n + 1))
      else appendMove (parasN n ++ [tocTitlePara (n + 1), pageBreakPara (n + 1 + 3),
          tocFieldPara (n + 1 + 2), emptyPara (n + 1 + 1), sectEl n])
          (tocTitlePara (n + 1)))
      = parasN n ++ [pageBreakPara (n + 1 + 3), tocFieldPara (n + 1 + 2),
          emptyPara (n + 1 + 1), tocTitlePara (n + 1), sectEl n] := by
    rw [if_pos (by
      simp only [List.length_append, List.length_cons, List.length_nil, hplen]
      omega)]
    rw [show parasN n ++ [tocTitlePara (n + 1), pageBreakPara (n + 1 + 3),
          tocFieldPara (n + 1 + 2), emptyPara (n + 1 + 1), sectEl n]
        = parasN n
            ++ tocTitlePara (n + 1) :: [pageBreakPara (n + 1 + 3), tocFieldPara (n + 1 + 2),
                emptyPara (n + 1 + 1)]
            ++ [sectEl n] by simp]
    rw [insertMoveAt_last _ _ _ _ (n + 4)
      (by simp only [List.length_append, List.length_cons, List.length_nil, hplen] <;> omega)
      (by
        intro a ha
        have := parasN_mem_id n a ha
        simp
        omega)
      (by
        intro a ha
        simp only [List.mem_cons, List.not_mem_nil, or_false] at ha
        rcases ha with rfl | rfl | rfl <;> simp <;> omega)
      (by simp <;> omega)
      (by
        intro a ha
        have := parasN_mem_id n a ha
        simp
        omega)
      (by
        intro a ha
        simp only [List.mem_cons, List.not_mem_nil, or_false] at ha
        rcases ha with rfl | rfl | rfl <;> simp <;> omega)]
    simp
  rw [e4]
  simp [tocElems]

/-- C3 counterexample: the claim says the count stops at a cap of 30 and
the block is inserted at that position.  On a body of 35 paragraphs plus
the `w:sectPr`, the counting loop increments to 31 *before* testing
`count > 30`, so the TOC block lands at index 31: position 30 still
holds the original paragraph with identity 30, and position 31 holds the
TOC heading (identity 36), falsifying the claimed cap-30 placement. -/
theorem C3_toc_cap_counterexample :
    ((insert_toc (c3Body 35) 36).map Elem.id)[30]? = some 30 ∧
    ((insert_toc (c3Body 35) 36).map Elem.id)[31]? = some 36 := by decide

/-- C3 (amended): `_insert_toc` first appends its four TOC paragraphs
(before the trailing `w:sectPr`), then counts paragraph-type elements
over the extended body, stopping only once the count *exceeds* 30 — so
the count caps at 31, not 30 — and moves the TOC block to position
`min(count, len(body) - 1)`.  For a body of `n ≥ 31` paragraphs plus
the `w:sectPr` the four-element block lands in creation order at
position 31.  For a body of `n ≤ 26` paragraphs the count includes the
four appended TOC paragraphs themselves, the position points at the
trailing `w:sectPr`, and the block ends up at the end of the body in
reversed creation order. -/
theorem C3_toc_placement_amended (n : Nat) :
    (31 ≤ n → insert_toc (c3Body n) (n + 1)
        = (parasN n).take 31 ++ tocElems (n + 1) ++ ((parasN n).drop 31 ++ [sectEl n])) ∧
    (n ≤ 26 → insert_toc (c3Body n) (n + 1)
        = parasN n ++ (tocElems (n + 1)).reverse ++ [sectEl n]) := by
  constructor
  · intro h
    rw [insert_toc_eq, c3_body1, (c3_count n).1 h, c3_body1_length,
      show min 31 (n + 5 - 1) = 31 by omega,
      show (tocElems (n + 1)).reverse = [pageBreakPara (n + 1 + 3), tocFieldPara (n + 1 + 2),
          emptyPara (n + 1 + 1), tocTitlePara (n + 1)] by simp [tocElems]]
    exact c3_fold_case1 n h
  · intro h
    rw [insert_toc_eq, c3_body1, (c3_count n).2 h, c3_body1_length,
      show min (n + 4) (n + 5 - 1) = n + 4 by omega,
      show (tocElems (n + 1)).reverse = [pageBreakPara (n + 1 + 3), tocFieldPara (n + 1 + 2),
          emptyPara (n + 1 + 1), tocTitlePara (n + 1)] by simp [tocElems]]
    exact c3_fold_case2 n h

theorem C3_toc_placement_amended_witness :
    31 ≤ 35 ∧ insert_toc (c3Body 35) 36
      = (parasN 35).take 31 ++ tocElems 36 ++ ((parasN 35).drop 31 ++ [sectEl 35]) :=
  ⟨by decide, (C3_toc_placement_amended 35).1 (by decide)⟩

/-! ## Page geometry and styles (`src/services/formatter.py`)

Lengths are EMU integers exactly as python-docx computes them:
`Inches(x) = int(x * 914400)` truncates the float product, so
`Inches(1) = 914400`, `Inches(0.85) = 777239`, `Inches(0.6) = 548639`
(the last two truncate the inexact binary floats), and
`Pt(p) = int(p * 12700)`. -/

/-- One document section (`doc.sections[i]`).  `mirrorCount` counts the
`w:mirrorMargins` children appended to `w:sectPr`; the source appends a
fresh one on every print-mode pass. -/
structure Sect where
  page_width : Int
  page_height : Int
  top_margin : Int
  bottom_margin : Int
  left_margin : Int
  right_margin : Int
  gutter : Int
  mirrorCount : Nat := 0
deriving DecidableEq, Repr

/-- The properties of a named style (`doc.styles[name]`); `none` is an
unset property. -/
structure Style where
  font_name : Option String := none
  font_size : Option Int := none
  bold : Option Bool := none
  line_spacing : Option ℚ := none
  space_before : Option Int := none
  space_after : Option Int := none
  first_line_indent : Option Int := none
  alignment : Option Align := none
  page_break_before : Option Bool := none
deriving DecidableEq, Repr

/-- The document: sections, the two styles the source configures
(`none` models the `KeyError` case where the style does not exist yet),
and the body tree. -/
structure DocX where
  sections : List Sect
  normal : Option Style := none
  heading1 : Option Style := none
  body : List Elem := []
deriving DecidableEq, Repr

/-- Python `TRIM_SIZES`: the three named presets, in EMU. -/
def TRIM_SIZES : List (String × Int × Int) :=
  [ ("6x9", (5486400, 8229600))
  , ("5x8", (4572000, 7315200))
  , ("8.5x11", (7772400, 10058400)) ]

/-- Association-list lookup mirroring Python `dict` key lookup. -/
def lookupTrim : List (String × Int × Int) → String → Option (Int × Int)
  | [], _ => none
  | (k, v) :: rest, key => if k = key then some v else lookupTrim rest key

/-- Python dict lookup `TRIM_SIZES.get` with the 6x9 entry as the
default. -/
def trimGet (key : String) : Int × Int :=
  (lookupTrim TRIM_SIZES key).getD (5486400, 8229600)

/-- The per-section body of `_setup_page_dimensions`: width/height from
the preset, fixed margins, and in print mode a zeroed gutter plus one
more appended `w:mirrorMargins` marker. -/
def setupSect (trim : String) (print_mode : Bool) (s : Sect) : Sect :=
  let size := trimGet trim
  { s with
    page_width := size.1
    page_height := size.2
    top_margin := 914400
    bottom_margin := 914400
    left_margin := 777239
    right_margin := 548639
    gutter := if print_mode then 0 else s.gutter
    mirrorCount := if print_mode then s.mirrorCount + 1 else s.mirrorCount }

/-- Python `_setup_page_dimensions(doc, trim_size, print_mode)`. -/
def setup_page_dimensions (doc : DocX) (trim : String) (print_mode : Bool) : DocX :=
  { doc with sections := doc.sections.map (setupSect trim print_mode) }

/-- Python `_setup_styles(doc, line_spacing)`: fetch-or-create `Normal` and
`Heading 1`, then overwrite the configured properties with constants
(`Pt(11) = 139700`, `Pt(18) = 228600`, `Pt(6) = 76200`,
`Pt(24) = 304800`, `Pt(12) = 152400`, `Inches(0.25) = 228600`). -/
def setup_styles (doc : DocX) (line_spacing : ℚ) : DocX :=
  let normal0 := doc.normal.getD {}
  let normal1 := { normal0 with
    font_name := some "Georgia"
    font_size := some 139700
    line_spacing := some line_spacing
    space_after := some 76200
    first_line_indent := some 228600 }
  let heading0 := doc.heading1.getD {}
  let heading1 := { heading0 with
    font_name := some "Georgia"
    font_size := some 228600
    bold := some true
    alignment := some Align.center
    space_before := some 304800
    space_after := some 152400
    first_line_indent := some 0
    page_break_before := some true }
  { doc with normal := some normal1, heading1 := some heading1 }

/-! ## Text normalization (`_cleanup_text`) -/

/-- Python `text.replace` turning every tab character into one
space. -/
def replaceTab (l : List Char) : List Char :=
  l.map (fun c => if c = '\t' then ' ' else c)

/-- State machine computing the space-collapsing regex substitution of
the source: the flag
records whether the previous character was a space, so every maximal
space run is emitted as a single space. -/
def collapseSpacesGo : Bool → List Char → List Char
  | _, [] => []
  | prevSpace, c :: cs =>
    if c = ' ' then
      if prevSpace then collapseSpacesGo true cs
      else ' ' :: collapseSpacesGo true cs
    else c :: collapseSpacesGo false cs

/-- The regex substitution collapsing every run of two or more spaces
to a single space. -/
def collapseSpaces (l : List Char) : List Char := collapseSpacesGo false l

/-- State machine computing the newline-collapsing regex substitution
of the source: the
counter records how many consecutive newlines were just emitted
(saturating at 2), so every maximal newline run of length three or more
is emitted as exactly two. -/
def collapseNlGo : Nat → List Char → List Char
  | _, [] => []
  | k, c :: cs =>
    if c = '\n' then
      if 2 ≤ k then collapseNlGo k cs
      else '\n' :: collapseNlGo (k + 1) cs
    else c :: collapseNlGo 0 cs

/-- The regex substitution collapsing every run of three or more
newlines to exactly two. -/
def collapseNewlines (l : List Char) : List Char := collapseNlGo 0 l

/-- The three normalization passes of `_cleanup_text`, in source
order. -/
def cleanChars (l : List Char) : List Char :=
  collapseNewlines (collapseSpaces (replaceTab l))

/-- Per-run text normalization. -/
def cleanText (s : String) : String := String.mk (cleanChars s.data)

/-- Python `_cleanup_text(doc)`: for every run of every paragraph with truthy
(non-empty) text, normalize the text in place. -/
def cleanRun (r : Run) : Run :=
  if r.text ≠ "" then { r with text := cleanText r.text } else r

def cleanup_text (body : List Elem) : List Elem :=
  body.map (fun e =>
    if e.kind = EKind.p then { e with runs := e.runs.map cleanRun } else e)

/-! ## Chapter and body formatting -/

/-- Python `_format_chapters(doc)`: every paragraph styled `Heading 1` gets a
forced page break, centered alignment, and heading font on every run. -/
def format_chapters (body : List Elem) : List Elem :=
  body.map (fun e =>
    if e.kind = EKind.p ∧ paraStyleName e = "Heading 1" then
      { e with
        page_break_before := some true
        alignment := some Align.center
        runs := e.runs.map (fun r =>
          { r with font_name := some "Georgia", font_size := some 228600, bold := some true }) }
    else e)

/-- Python `_apply_body_formatting(doc, line_spacing)`: every paragraph styled
`Normal`, `Body Text` or `Body` gets the body spacing/indent and body
font on every run. -/
def apply_body_formatting (body : List Elem) (line_spacing : ℚ) : List Elem :=
  body.map (fun e =>
    if e.kind = EKind.p ∧ (paraStyleName e = "Normal" ∨ paraStyleName e = "Body Text"
        ∨ paraStyleName e = "Body") then
      { e with
        line_spacing := some line_spacing
        space_after := some 76200
        first_line_indent := some 228600
        runs := e.runs.map (fun r =>
          { r with font_name := some "Georgia", font_size := some 139700 }) }
    else e)

/-! ## The pipeline (`format_manuscript`) -/

/-- The I/O a `format_manuscript` call can observe: the parse of the
input package (`Document(input_path)` succeeds or raises), the zip view
the DPI scan sees, the outcome of `doc.save(output_path)`, and the
current year used by the copyright template. -/
structure FmtEnv where
  readDoc : Except String DocX
  zip : ZipOpen
  saveOk : Except String Unit
  year : Nat

/-- The dictionary `format_manuscript` returns; `none` models an absent
key. -/
structure FmtResult where
  success : Bool
  output_path : Option String := none
  dpi_warnings : Option (List DpiWarning) := none
  message : Option String := none
  error : Option String := none
deriving DecidableEq, Repr

/-- A fresh lxml identity for newly created elements: larger than every
identity in the body. -/
def freshId (body : List Elem) : Nat := (body.map Elem.id).foldr max 0 + 1

/-- Python `format_manuscript(input_path, output_path, ...)`: the whole
pipeline inside one `try`.  A `Document()` failure or a `doc.save()`
failure lands in the `except` branch, which returns a dictionary with
success false, the exception text as error, and an **empty**
dpi_warnings list.  On success the result carries the collected DPI
warnings. -/
def format_manuscript (env : FmtEnv) (output_path : String) (trim_size : String)
    (print_mode : Bool) (title author : String) (line_spacing : ℚ) : FmtResult :=
  match env.readDoc with
  | Except.error e => { success := false, error := some e, dpi_warnings := some [] }
  | Except.ok doc0 =>
    let dpi_warnings := check_image_dpi env.zip 300
    let doc1 := setup_page_dimensions doc0 trim_size print_mode
    let doc2 := setup_styles doc1 line_spacing
    let doc3 := { doc2 with body := cleanup_text doc2.body }
    let doc4 := { doc3 with body := format_chapters doc3.body }
    let doc5 := { doc4 with body := apply_body_formatting doc4.body line_spacing }
    let doc6 := { doc5 with
      body := insert_front_matter doc5.body (freshId doc5.body) title author env.year }
    let _doc7 := { doc6 with body := insert_toc doc6.body (freshId doc6.body) }
    match env.saveOk with
    | Except.error e => { success := false, error := some e, dpi_warnings := some [] }
    | Except.ok _ =>
      { success := true
        output_path := some output_path
        dpi_warnings := some dpi_warnings
        message := some "Manuscript formatted successfully" }

/-! ## C2, C9: pipeline result shape -/

/-- C2 counterexample input: a readable document whose container holds
one low-DPI image, and a destination that cannot be written. -/
def c2Doc : DocX :=
  { sections := []
  , body := [{ id := 0, runs := [{ text := "X" }] }, { id := 1, kind := EKind.sectPr }] }

def c2Entry : ZipEntry :=
  { name := "word/media/a.png", img := ImgRead.ok { dpi := none, width := 5, height := 5 } }

def c2Env : FmtEnv :=
  { readDoc := Except.ok c2Doc
  , zip := ZipOpen.ok [c2Entry]
  , saveOk := Except.error "disk full"
  , year := 2025 }

/-- C2 counterexample: the claim — and §8 of the spec — say a failure
after the DPI scan still carries every collected warning.  On this
input the scan collects one warning (the 72-DPI image), the save fails,
and the returned failure dictionary carries `dpi_warnings := []`: the
`except` branch of `format_manuscript` discards the collected list. -/
theorem C2_warnings_lost_counterexample :
    (format_manuscript c2Env "out.docx" "6x9" false "T" "A" (23 / 20 : ℚ)).success = false ∧
    (check_image_dpi c2Env.zip 300).length = 1 ∧
    (format_manuscript c2Env "out.docx" "6x9" false "T" "A" (23 / 20 : ℚ)).dpi_warnings
      = some [] := by
  refine ⟨by decide, by decide, by decide⟩

/-- C2 (amended): whenever `format_manuscript` returns a failure
result, its `dpi_warnings` entry is the **empty** list — warnings
collected before the failure are discarded by the `except` branch, not
preserved. -/
theorem C2_failure_empty_warnings_amended (env : FmtEnv) (out trim : String) (pm : Bool)
    (t a : String) (ls : ℚ)
    (hfail : (format_manuscript env out trim pm t a ls).success = false) :
    (format_manuscript env out trim pm t a ls).dpi_warnings = some [] := by
  unfold format_manuscript at hfail ⊢
  cases hr : env.readDoc with
  | error e => rfl
  | ok doc0 =>
    rw [hr] at hfail
    cases hsv : env.saveOk with
    | error e => rfl
    | ok u =>
      rw [hsv] at hfail
      simp at hfail

theorem C2_failure_empty_warnings_amended_witness :
    (format_manuscript c2Env "out.docx" "6x9" false "T" "A" (23 / 20 : ℚ)).success = false ∧
    (format_manuscript c2Env "out.docx" "6x9" false "T" "A" (23 / 20 : ℚ)).dpi_warnings
      = some [] :=
  ⟨by decide,
   C2_failure_empty_warnings_amended c2Env "out.docx" "6x9" false "T" "A" (23 / 20 : ℚ)
     (by decide)⟩

/-- C9: `format_manuscript` is total at its public interface: the whole
body sits inside `try`/`except Exception`, so every call returns a
result dictionary (the model returns a `FmtResult` for every
environment, including unreadable and malformed inputs); whenever
`success` is false the dictionary carries an `error` string and a
`dpi_warnings` list, and on success it carries the warning list too. -/
theorem C9_total_interface (env : FmtEnv) (out trim : String) (pm : Bool)
    (t a : String) (ls : ℚ) :
    ((format_manuscript env out trim pm t a ls).success = false →
      (format_manuscript env out trim pm t a ls).error.isSome = true ∧
      (format_manuscript env out trim pm t a ls).dpi_warnings.isSome = true) ∧
    ((format_manuscript env out trim pm t a ls).success = true →
      (format_manuscript env out trim pm t a ls).dpi_warnings.isSome = true) := by
  unfold format_manuscript
  cases env.readDoc with
  | error e => exact ⟨fun _ => ⟨rfl, rfl⟩, fun h => by simp at h ⊢⟩
  | ok doc0 =>
    cases env.saveOk with
    | error e => exact ⟨fun _ => ⟨rfl, rfl⟩, fun h => by simp at h ⊢⟩
    | ok u => exact ⟨fun h => by simp at h, fun _ => rfl⟩

/-- An unreadable input package, for the C9 witness. -/
def c9Env : FmtEnv :=
  { readDoc := Except.error "not a zip", zip := ZipOpen.err "not a zip"
  , saveOk := Except.ok (), year := 2025 }

theorem C9_total_interface_witness :
    (format_manuscript c9Env "o.docx" "6x9" false "T" "A" (23 / 20 : ℚ)).success = false ∧
    ((format_manuscript c9Env "o.docx" "6x9" false "T" "A" (23 / 20 : ℚ)).error.isSome = true ∧
      (format_manuscript c9Env "o.docx" "6x9" false "T" "A"
        (23 / 20 : ℚ)).dpi_warnings.isSome = true) :=
  ⟨by decide,
   (C9_total_interface c9Env "o.docx" "6x9" false "T" "A" (23 / 20 : ℚ)).1 (by decide)⟩

/-! ## C8: trim-size presets -/

/-- C8: after `_setup_page_dimensions`, the page dimensions of every
section exactly match the named preset for the three recognized keys, and any
other key silently falls back to the 6×9 preset (no error path
exists). -/
theorem C8_trim_presets (doc : DocX) (key : String) (pm : Bool) (s : Sect)
    (hs : s ∈ (setup_page_dimensions doc key pm).sections) :
    (key = "6x9" → (s.page_width, s.page_height) = (5486400, 8229600)) ∧
    (key = "5x8" → (s.page_width, s.page_height) = (4572000, 7315200)) ∧
    (key = "8.5x11" → (s.page_width, s.page_height) = (7772400, 10058400)) ∧
    (key ≠ "6x9" ∧ key ≠ "5x8" ∧ key ≠ "8.5x11" →
      (s.page_width, s.page_height) = (5486400, 8229600)) := by
  simp only [setup_page_dimensions, List.mem_map] at hs
  rcases hs with ⟨s0, hs0, rfl⟩
  refine ⟨?_, ?_, ?_, ?_⟩
  · rintro rfl
    rfl
  · rintro rfl
    rfl
  · rintro rfl
    rfl
  · rintro ⟨h1, h2, h3⟩
    have n1 : ¬ ("6x9" = key) := fun hh => h1 hh.symm
    have n2 : ¬ ("5x8" = key) := fun hh => h2 hh.symm
    have n3 : ¬ ("8.5x11" = key) := fun hh => h3 hh.symm
    simp [setupSect, trimGet, TRIM_SIZES, lookupTrim, n1, n2, n3]

/-- A blank section for the C8 witness. -/
def c8Sect0 : Sect :=
  { page_width := 0, page_height := 0, top_margin := 0, bottom_margin := 0
  , left_margin := 0, right_margin := 0, gutter := 7 }

/-- A one-section document for the C8 witness. -/
def c8Doc : DocX := { sections := [c8Sect0] }

theorem C8_trim_presets_witness :
    setupSect "5x8" false c8Sect0 ∈ (setup_page_dimensions c8Doc "5x8" false).sections ∧
    (("5x8" : String) = "5x8" →
      ((setupSect "5x8" false c8Sect0).page_width,
        (setupSect "5x8" false c8Sect0).page_height)
        = (4572000, 7315200)) :=
  ⟨by decide,
   (C8_trim_presets c8Doc "5x8" false (setupSect "5x8" false c8Sect0) (by decide)).2.1⟩

/-! ## C7: second-pass idempotence of geometry and styles -/

/-- The section values the round-trip claim is about: page size, four
margins, gutter. -/
def sectGeom (s : Sect) : Int × Int × Int × Int × Int × Int × Int :=
  (s.page_width, s.page_height, s.top_margin, s.bottom_margin,
    s.left_margin, s.right_margin, s.gutter)

/-- C7: running `_setup_page_dimensions` followed by `_setup_styles`
twice with identical options writes the same constants again: section
geometry (page size, margins, gutter) and the full `Normal` and
`Heading 1` style records are identical after one pass and after two.
(The `w:mirrorMargins` markers and the duplicated front matter/TOC do
accumulate; they are outside the claimed value set.) -/
theorem C7_second_pass_idempotent (doc : DocX) (trim : String) (pm : Bool) (ls : ℚ) :
    ((setup_styles (setup_page_dimensions
          (setup_styles (setup_page_dimensions doc trim pm) ls) trim pm) ls).sections.map
        sectGeom
      = (setup_styles (setup_page_dimensions doc trim pm) ls).sections.map sectGeom) ∧
    (setup_styles (setup_page_dimensions
          (setup_styles (setup_page_dimensions doc trim pm) ls) trim pm) ls).normal
      = (setup_styles (setup_page_dimensions doc trim pm) ls).normal ∧
    (setup_styles (setup_page_dimensions
          (setup_styles (setup_page_dimensions doc trim pm) ls) trim pm) ls).heading1
      = (setup_styles (setup_page_dimensions doc trim pm) ls).heading1 := by
  refine ⟨?_, rfl, rfl⟩
  show (doc.sections.map (setupSect trim pm) |>.map (setupSect trim pm)).map sectGeom
      = (doc.sections.map (setupSect trim pm)).map sectGeom
  rw [List.map_map, List.map_map, List.map_map]
  apply List.map_congr_left
  intro s _
  by_cases hpm : pm <;> simp [Function.comp, setupSect, sectGeom, hpm]

/-- A one-section, style-free document for the C7 witness. -/
def c7Doc : DocX := { sections := [c8Sect0] }

theorem C7_second_pass_idempotent_witness :
    ((setup_styles (setup_page_dimensions
          (setup_styles (setup_page_dimensions c7Doc "6x9" true) (23 / 20 : ℚ)) "6x9" true)
        (23 / 20 : ℚ)).sections.map sectGeom
      = (setup_styles (setup_page_dimensions c7Doc "6x9" true) (23 / 20 : ℚ)).sections.map
          sectGeom) ∧
    (setup_styles (setup_page_dimensions
          (setup_styles (setup_page_dimensions c7Doc "6x9" true) (23 / 20 : ℚ)) "6x9" true)
        (23 / 20 : ℚ)).normal
      = (setup_styles (setup_page_dimensions c7Doc "6x9" true) (23 / 20 : ℚ)).normal :=
  ⟨(C7_second_pass_idempotent c7Doc "6x9" true (23 / 20 : ℚ)).1,
   (C7_second_pass_idempotent c7Doc "6x9" true (23 / 20 : ℚ)).2.1⟩

/-! ## C6: text normalization postconditions -/

/-- Two consecutive spaces occur somewhere in the list. -/
def hasTwoSpaces : List Char → Bool
  | a :: b :: rest => (a == ' ' && b == ' ') || hasTwoSpaces (b :: rest)
  | _ => false

/-- Three consecutive newlines occur somewhere in the list. -/
def hasThreeNl : List Char → Bool
  | a :: b :: c :: rest => (a == '\n' && b == '\n' && c == '\n') || hasThreeNl (b :: c :: rest)
  | _ => false

/-- Length of the leading newline run. -/
def nlPrefixLen : List Char → Nat
  | [] => 0
  | c :: rest => if c = '\n' then nlPrefixLen rest + 1 else 0

theorem hasTwo_tail (c : Char) (cs : List Char)
    (h : hasTwoSpaces (c :: cs) = false) : hasTwoSpaces cs = false := by
  cases cs with
  | nil => rfl
  | cons d ds =>
    simp only [hasTwoSpaces, Bool.or_eq_false_iff] at h
    exact h.2

theorem hasTwo_space_head (cs : List Char)
    (h : hasTwoSpaces (' ' :: cs) = false) : cs.head? ≠ some ' ' := by
  cases cs with
  | nil => simp
  | cons d ds =>
    simp only [hasTwoSpaces, Bool.or_eq_false_iff, Bool.and_eq_false_iff] at h
    simp only [List.head?_cons]
    intro hd
    injection hd with hd
    subst hd
    rcases h.1 with h1 | h1 <;> simp at h1

theorem csGo_no_two (l : List Char) : ∀ prev : Bool,
    hasTwoSpaces (collapseSpacesGo prev l) = false ∧
    ((collapseSpacesGo true l).head? ≠ some ' ') := by
  induction l with
  | nil =>
    intro prev
    exact ⟨rfl, by simp [collapseSpacesGo]⟩
  | cons c cs ih =>
    intro prev
    by_cases hc : c = ' '
    · subst hc
      refine ⟨?_, ?_⟩
      · cases prev with
        | true =>
          show hasTwoSpaces (collapseSpacesGo true cs) = false
          exact (ih true).1
        | false =>
          show hasTwoSpaces (' ' :: collapseSpacesGo true cs) = false
          cases hgo : collapseSpacesGo true cs with
          | nil => rfl
          | cons d ds =>
            have hd : ¬ d = ' ' := by
              have h2 := (ih true).2
              rw [hgo] at h2
              simpa using h2
            have h1 := (ih true).1
            rw [hgo] at h1
            simp only [hasTwoSpaces, Bool.or_eq_false_iff]
            exact ⟨by simp [hd], h1⟩
      · show (collapseSpacesGo true cs).head? ≠ some ' '
        exact (ih true).2
    · have hred : collapseSpacesGo prev (c :: cs) = c :: collapseSpacesGo false cs := by
        simp [collapseSpacesGo, hc]
      have hred2 : collapseSpacesGo true (c :: cs) = c :: collapseSpacesGo false cs := by
        simp [collapseSpacesGo, hc]
      refine ⟨?_, ?_⟩
      · rw [hred]
        cases hgo : collapseSpacesGo false cs with
        | nil => rfl
        | cons d ds =>
          have h1 := (ih false).1
          rw [hgo] at h1
          simp only [hasTwoSpaces, Bool.or_eq_false_iff]
          exact ⟨by simp [hc], h1⟩
      · rw [hred2]
        simp [hc]

theorem hasThree_cons_nl_false (r : List Char)
    (h1 : hasThreeNl r = false) (h2 : nlPrefixLen r ≤ 1) :
    hasThreeNl ('\n' :: r) = false := by
  cases r with
  | nil => rfl
  | cons b r' =>
    cases r' with
    | nil => rfl
    | cons c r'' =>
      by_cases hb : b = '\n'
      · subst hb
        by_cases hcn : c = '\n'
        · subst hcn
          simp [nlPrefixLen] at h2
        · simp only [hasThreeNl, Bool.or_eq_false_iff]
          exact ⟨by simp [hcn], h1⟩
      · simp only [hasThreeNl, Bool.or_eq_false_iff]
        exact ⟨by simp [hb], h1⟩

theorem hasThree_cons_other (c : Char) (r : List Char) (h : ¬ c = '\n') :
    hasThreeNl (c :: r) = hasThreeNl r := by
  cases r with
  | nil => rfl
  | cons b r' =>
    cases r' with
    | nil => rfl
    | cons c2 r'' => simp [hasThreeNl, h]

theorem nlGo_no_three (l : List Char) : ∀ k,
    hasThreeNl (collapseNlGo k l) = false ∧
    nlPrefixLen (collapseNlGo k l) + min k 2 ≤ 2 := by
  induction l with
  | nil =>
    intro k
    refine ⟨rfl, ?_⟩
    show nlPrefixLen [] + min k 2 ≤ 2
    simp [nlPrefixLen]
  | cons c cs ih =>
    intro k
    by_cases hc : c = '\n'
    · subst hc
      by_cases hk : 2 ≤ k
      · rw [show collapseNlGo k ('\n' :: cs) = collapseNlGo k cs by simp [collapseNlGo, hk]]
        refine ⟨(ih k).1, (ih k).2⟩
      · rw [show collapseNlGo k ('\n' :: cs) = '\n' :: collapseNlGo (k + 1) cs by
          simp [collapseNlGo, hk]]
        have h1 := (ih (k + 1)).1
        have h2 := (ih (k + 1)).2
        constructor
        · exact hasThree_cons_nl_false _ h1 (by omega)
        · have hpre : nlPrefixLen ('\n' :: collapseNlGo (k + 1) cs)
              = nlPrefixLen (collapseNlGo (k + 1) cs) + 1 := by
            simp [nlPrefixLen]
          rw [hpre]
          omega
    · rw [show collapseNlGo k (c :: cs) = c :: collapseNlGo 0 cs by simp [collapseNlGo, hc]]
      constructor
      · rw [hasThree_cons_other c _ hc]
        exact (ih 0).1
      · simp only [nlPrefixLen, if_neg hc]
        omega

theorem nlGo_head_not_space (cs : List Char) (h : cs.head? ≠ some ' ') :
    (collapseNlGo 0 cs).head? ≠ some ' ' := by
  cases cs with
  | nil => simp [collapseNlGo]
  | cons c cs' =>
    by_cases hc : c = '\n'
    · subst hc
      rw [show collapseNlGo 0 ('\n' :: cs') = '\n' :: collapseNlGo 1 cs' by simp [collapseNlGo]]
      simp
    · rw [show collapseNlGo 0 (c :: cs') = c :: collapseNlGo 0 cs' by simp [collapseNlGo, hc]]
      simpa using h

theorem nlGo_no_two (l : List Char) : ∀ k, hasTwoSpaces l = false →
    hasTwoSpaces (collapseNlGo k l) = false := by
  induction l with
  | nil => intro k _; rfl
  | cons c cs ih =>
    intro k h
    have hcs := hasTwo_tail c cs h
    by_cases hc : c = '\n'
    · subst hc
      by_cases hk : 2 ≤ k
      · rw [show collapseNlGo k ('\n' :: cs) = collapseNlGo k cs by simp [collapseNlGo, hk]]
        exact ih k hcs
      · rw [show collapseNlGo k ('\n' :: cs) = '\n' :: collapseNlGo (k + 1) cs by
          simp [collapseNlGo, hk]]
        cases hgo : collapseNlGo (k + 1) cs with
        | nil => rfl
        | cons d ds =>
          have h1 := ih (k + 1) hcs
          rw [hgo] at h1
          simp only [hasTwoSpaces, Bool.or_eq_false_iff]
          exact ⟨by simp, h1⟩
    · rw [show collapseNlGo k (c :: cs) = c :: collapseNlGo 0 cs by simp [collapseNlGo, hc]]
      by_cases hsp : c = ' '
      · subst hsp
        have hhead := nlGo_head_not_space cs (hasTwo_space_head cs h)
        cases hgo : collapseNlGo 0 cs with
        | nil => rfl
        | cons d ds =>
          rw [hgo] at hhead
          have hd : ¬ d = ' ' := by simpa using hhead
          have h1 := ih 0 hcs
          rw [hgo] at h1
          simp only [hasTwoSpaces, Bool.or_eq_false_iff]
          exact ⟨by simp [hd], h1⟩
      · cases hgo : collapseNlGo 0 cs with
        | nil => rfl
        | cons d ds =>
          have h1 := ih 0 hcs
          rw [hgo] at h1
          simp only [hasTwoSpaces, Bool.or_eq_false_iff]
          exact ⟨by simp [hsp], h1⟩

theorem mem_csGo (l : List Char) : ∀ (prev : Bool) (c : Char),
    c ∈ collapseSpacesGo prev l → c ∈ l ∨ c = ' ' := by
  induction l with
  | nil =>
    intro prev c h
    cases h
  | cons a cs ih =>
    intro prev c h
    by_cases ha : a = ' '
    · subst ha
      cases prev with
      | true =>
        rcases ih true c h with h2 | h2
        · exact Or.inl (List.mem_cons_of_mem _ h2)
        · exact Or.inr h2
      | false =>
        rcases List.mem_cons.mp h with rfl | h2
        · exact Or.inr rfl
        · rcases ih true c h2 with h3 | h3
          · exact Or.inl (List.mem_cons_of_mem _ h3)
          · exact Or.inr h3
    · rw [show collapseSpacesGo prev (a :: cs) = a :: collapseSpacesGo false cs by
        simp [collapseSpacesGo, ha]] at h
      rcases List.mem_cons.mp h with rfl | h2
      · exact Or.inl (List.mem_cons_self _ _)
      · rcases ih false c h2 with h3 | h3
        · exact Or.inl (List.mem_cons_of_mem _ h3)
        · exact Or.inr h3

theorem mem_nlGo (l : List Char) : ∀ (k : Nat) (c : Char),
    c ∈ collapseNlGo k l → c ∈ l ∨ c = '\n' := by
  induction l with
  | nil =>
    intro k c h
    cases h
  | cons a cs ih =>
    intro k c h
    by_cases ha : a = '\n'
    · subst ha
      by_cases hk : 2 ≤ k
      · rw [show collapseNlGo k ('\n' :: cs) = collapseNlGo k cs by simp [collapseNlGo, hk]] at h
        rcases ih k c h with h2 | h2
        · exact Or.inl (List.mem_cons_of_mem _ h2)
        · exact Or.inr h2
      · rw [show collapseNlGo k ('\n' :: cs) = '\n' :: collapseNlGo (k + 1) cs by
          simp [collapseNlGo, hk]] at h
        rcases List.mem_cons.mp h with rfl | h2
        · exact Or.inr rfl
        · rcases ih (k + 1) c h2 with h3 | h3
          · exact Or.inl (List.mem_cons_of_mem _ h3)
          · exact Or.inr h3
    · rw [show collapseNlGo k (a :: cs) = a :: collapseNlGo 0 cs by
        simp [collapseNlGo, ha]] at h
      rcases List.mem_cons.mp h with rfl | h2
      · exact Or.inl (List.mem_cons_self _ _)
      · rcases ih 0 c h2 with h3 | h3
        · exact Or.inl (List.mem_cons_of_mem _ h3)
        · exact Or.inr h3

/-- The three postconditions of the normalization chain on one run's
characters. -/
theorem cleanChars_props (l : List Char) :
    ('\t' ∉ cleanChars l) ∧ hasTwoSpaces (cleanChars l) = false ∧
      hasThreeNl (cleanChars l) = false := by
  refine ⟨?_, ?_, ?_⟩
  · intro hmem
    unfold cleanChars collapseNewlines collapseSpaces at hmem
    rcases mem_nlGo _ 0 '\t' hmem with h1 | h1
    · rcases mem_csGo _ false '\t' h1 with h2 | h2
      · unfold replaceTab at h2
        rcases List.mem_map.mp h2 with ⟨c0, _, hc0⟩
        by_cases hct : c0 = '\t' <;> simp [hct] at hc0
      · exact absurd h2 (by decide)
    · exact absurd h1 (by decide)
  · exact nlGo_no_two _ 0 ((csGo_no_two (replaceTab l) false).1)
  · exact (nlGo_no_three _ 0).1

/-- C6: after `_cleanup_text`, every run of every paragraph contains no
tab, no two consecutive spaces, and no three consecutive newlines; the
transformation is per-run and leaves the element structure (identity,
kind, run count of every element, in order) unchanged. -/
theorem C6_cleanup_normalizes (body : List Elem) :
    ((cleanup_text body).map (fun e => (e.id, e.kind, e.runs.length))
      = body.map (fun e => (e.id, e.kind, e.runs.length))) ∧
    ∀ e ∈ cleanup_text body, e.kind = EKind.p → ∀ r ∈ e.runs,
      ('\t' ∉ r.text.data ∧ hasTwoSpaces r.text.data = false ∧
        hasThreeNl r.text.data = false) := by
  constructor
  · unfold cleanup_text
    rw [List.map_map]
    apply List.map_congr_left
    intro e _
    by_cases he : e.kind = EKind.p <;> simp [Function.comp, he]
  · intro e he hkind r hr
    unfold cleanup_text at he
    rcases List.mem_map.mp he with ⟨e0, he0, rfl⟩
    by_cases hk : e0.kind = EKind.p
    · rw [if_pos hk] at hr
      simp only at hr
      rcases List.mem_map.mp hr with ⟨r0, hr0, rfl⟩
      unfold cleanRun
      by_cases ht : r0.text ≠ ""
      · rw [if_pos ht]
        show '\t' ∉ (cleanText r0.text).data ∧ _ ∧ _
        have hdata : (cleanText r0.text).data = cleanChars r0.text.data := rfl
        rw [hdata]
        exact cleanChars_props r0.text.data
      · rw [if_neg ht]
        push_neg at ht
        rw [ht]
        exact ⟨by simp, rfl, rfl⟩
    · rw [if_neg hk] at hkind
      exact absurd hkind hk

/-- A body whose single run exercises tabs, space runs and newline
runs, for the C6 witness. -/
def c6Body : List Elem := [{ id := 0, runs := [{ text := "a\tb  c\n\n\n\n\nd" }] }]

/-- The normalized run of `c6Body`. -/
def c6Run : Run := cleanRun { text := "a\tb  c\n\n\n\n\nd" }

/-- The normalized element of `c6Body`. -/
def c6Elem : Elem := { id := 0, runs := [c6Run] }

theorem C6_cleanup_normalizes_witness :
    (c6Elem ∈ cleanup_text c6Body ∧ c6Elem.kind = EKind.p ∧ c6Run ∈ c6Elem.runs) ∧
    ('\t' ∉ c6Run.text.data ∧ hasTwoSpaces c6Run.text.data = false ∧
      hasThreeNl c6Run.text.data = false) :=
  ⟨⟨by decide, by decide, by decide⟩,
   (C6_cleanup_normalizes c6Body).2 c6Elem (by decide) (by decide) c6Run (by decide)⟩
